import Mathlib

/-!
Verification of the lemire-simd byte-stream transcoding kernels.

Modeling conventions (shallow embedding of the Rust source in src/):

* A byte buffer is a `List Nat`; each element models one `u8`.  Operations
  that only compare bytes need no range assumption; theorems about the
  bit-level kernels (NEON bit-select, SWAR words) assume every byte is
  below 256, as a `u8` is.
* Slice writes (`buf[i] = b`, `vst1_u8`, `vst1q_u8`) are modelled with
  `List.set` (via `storeBytes` for multi-byte stores), which is a no-op out
  of bounds; all in-bounds obligations are discharged in the proofs.
* `Vec` memory written through raw pointers (insert_line_feed_neon) is
  modelled as a flat byte memory `Nat → Nat`, because that code writes past
  the requested capacity; the store footprint is tracked separately.
* Reads past the end of a buffer (possible in insert_line_feed_neon) return
  the value of an arbitrary `junk : Nat → Nat` function; equivalence
  theorems quantify over `junk`, so they hold whatever those reads yield.
* A Rust slice-index panic is modelled with `Except`, the error value
  carrying the state of the output buffer at the moment of the panic.
* NEON vectors are `List Nat` of length 8 (`uint8x8_t`) or 16
  (`uint8x16_t`); each intrinsic is translated lane by lane.
* `u64` values (SWAR) are `Nat` with wrapping arithmetic taken mod 2^64.
-/

/-! ### Generic byte-store helpers -/

/-- Store the bytes `ws` into the list `l` starting at index `i`
(one `List.set` per byte, so lengths never change). -/
def storeBytes (l : List Nat) (i : Nat) : List Nat → List Nat
  | [] => l
  | w :: ws => storeBytes (l.set i w) (i + 1) ws

theorem length_storeBytes (ws : List Nat) (l : List Nat) (i : Nat) :
    (storeBytes l i ws).length = l.length := by
  induction ws generalizing l i with
  | nil => rfl
  | cons w ws ih => simp [storeBytes, ih]

theorem take_set_of_le (l : List Nat) (i n : Nat) (w : Nat) (h : n ≤ i) :
    (l.set i w).take n = l.take n := by
  induction l generalizing i n with
  | nil => simp
  | cons a l ih =>
    cases i with
    | zero => simp [Nat.le_zero.mp h]
    | succ i =>
      cases n with
      | zero => simp
      | succ n => simp [List.set, ih l.length, ih i n (Nat.le_of_succ_le_succ h)]

theorem set_take_succ (l : List Nat) (i : Nat) (w : Nat) (h : i < l.length) :
    (l.set i w).take (i + 1) = l.take i ++ [w] := by
  induction l generalizing i with
  | nil => simp at h
  | cons a l ih =>
    cases i with
    | zero => simp
    | succ i => simpa using ih i (by simpa using h)

theorem drop_set_of_lt (l : List Nat) (i n : Nat) (w : Nat) (h : i < n) :
    (l.set i w).drop n = l.drop n := by
  induction l generalizing i n with
  | nil => simp
  | cons a l ih =>
    cases i with
    | zero =>
      cases n with
      | zero => omega
      | succ n => simp
    | succ i =>
      cases n with
      | zero => omega
      | succ n => simpa using ih i n (by omega)

theorem take_storeBytes_of_le (ws : List Nat) (l : List Nat) (i n : Nat)
    (h : n ≤ i) : (storeBytes l i ws).take n = l.take n := by
  induction ws generalizing l i with
  | nil => rfl
  | cons w ws ih =>
    rw [storeBytes, ih (l.set i w) (i + 1) (by omega), take_set_of_le l i n w h]

theorem take_storeBytes_full (ws : List Nat) (l : List Nat) (i : Nat)
    (h : i + ws.length ≤ l.length) :
    (storeBytes l i ws).take (i + ws.length) = l.take i ++ ws := by
  induction ws generalizing l i with
  | nil => simp [storeBytes]
  | cons w ws ih =>
    have hlen : i < l.length := by simp at h; omega
    have h2 : (i + 1) + ws.length ≤ (l.set i w).length := by simp at h ⊢; omega
    have := ih (l.set i w) (i + 1) h2
    rw [storeBytes]
    have harith : i + (w :: ws).length = (i + 1) + ws.length := by simp; omega
    rw [harith, this, set_take_succ l i w hlen]
    simp

theorem drop_storeBytes_of_le (ws : List Nat) (l : List Nat) (i n : Nat)
    (h : i + ws.length ≤ n) : (storeBytes l i ws).drop n = l.drop n := by
  induction ws generalizing l i with
  | nil => rfl
  | cons w ws ih =>
    have h2 : (i + 1) + ws.length ≤ n := by simp at h; omega
    rw [storeBytes, ih (l.set i w) (i + 1) h2, drop_set_of_lt l i n w (by simp at h; omega)]

/-! ### Flat byte memory (raw-pointer writes) -/

/-- Flat byte memory, used to model raw-pointer stores into a `Vec`'s
allocation (which the source code can overrun). -/
def writeMem (m : Nat → Nat) (i : Nat) : List Nat → (Nat → Nat)
  | [] => m
  | w :: ws => writeMem (Function.update m i w) (i + 1) ws

/-- The first `n` bytes of a flat memory, as a list. -/
def memRange (m : Nat → Nat) (n : Nat) : List Nat :=
  (List.range n).map m

theorem writeMem_apply_lt (ws : List Nat) (m : Nat → Nat) (i a : Nat)
    (h : a < i) : writeMem m i ws a = m a := by
  induction ws generalizing m i with
  | nil => rfl
  | cons w ws ih =>
    rw [writeMem, ih _ (i + 1) (by omega), Function.update_noteq (by omega)]

theorem writeMem_apply_in (ws : List Nat) (m : Nat → Nat) (i t : Nat)
    (h : t < ws.length) : writeMem m i ws (i + t) = ws.getD t 0 := by
  induction ws generalizing m i t with
  | nil => simp at h
  | cons w ws ih =>
    cases t with
    | zero =>
      rw [writeMem]
      have h0 : i + 0 = i := rfl
      rw [h0, writeMem_apply_lt ws _ (i + 1) i (by omega)]
      simp
    | succ t =>
      have := ih (Function.update m i w) (i + 1) t (by simpa using h)
      rw [writeMem]
      have harith : i + (t + 1) = (i + 1) + t := by omega
      rw [harith, this]
      simp

theorem memRange_add (m : Nat → Nat) (a b : Nat) :
    memRange m (a + b) = memRange m a ++ (List.range b).map (fun t => m (a + t)) := by
  simp [memRange, List.range_add, Function.comp]

theorem memRange_congr (m m' : Nat → Nat) (n : Nat)
    (h : ∀ a < n, m a = m' a) : memRange m n = memRange m' n := by
  unfold memRange
  exact List.map_congr_left (fun a ha => h a (List.mem_range.mp ha))

/-! ### Lane-index helper -/

theorem getD_range_map (n j : Nat) (f : Nat → Nat) (d : Nat) (h : j < n) :
    ((List.range n).map f).getD j d = f j := by
  rw [List.getD_eq_getElem _ _ (by simpa using h)]
  simp

/-! ### Classification masks and the compile-time shuffle tables
(remove_chars_from_strings.rs, escape_strings.rs) -/

/-- movemask_u8x8: collapse the eight lanes of a comparison-result vector
into one byte, bit i set iff lane i is nonzero.  The source loops over the
lanes setting bit i with a shift-and-or; this recursion builds the same
little-endian bitmask. -/
def movemask_u8x8 : List Nat → Nat
  | [] => 0
  | t :: rest => (if t ≠ 0 then 1 else 0) + 2 * movemask_u8x8 rest

/-- u8::count_ones (population count). -/
def count_ones (n : Nat) : Nat :=
  if h : n = 0 then 0 else n % 2 + count_ones (n / 2)
decreasing_by exact Nat.div_lt_self (Nat.pos_of_ne_zero h) (by decide)

theorem count_ones_bit (b m : Nat) (hb : b ≤ 1) :
    count_ones (b + 2 * m) = b + count_ones m := by
  rcases Nat.le_one_iff_eq_zero_or_eq_one.mp hb with rfl | rfl
  · rcases Nat.eq_zero_or_pos m with rfl | hm
    · norm_num
    · rw [count_ones, dif_neg (by omega)]
      have h1 : (0 + 2 * m) % 2 = 0 := by omega
      have h2 : (0 + 2 * m) / 2 = m := by omega
      rw [h1, h2]
  · rw [count_ones, dif_neg (by omega)]
    have h1 : (1 + 2 * m) % 2 = 1 := by omega
    have h2 : (1 + 2 * m) / 2 = m := by omega
    rw [h1, h2]

theorem movemask_lt (fs : List Nat) : movemask_u8x8 fs < 2 ^ fs.length := by
  induction fs with
  | nil => simp [movemask_u8x8]
  | cons f fs ih =>
    rw [movemask_u8x8]
    simp only [List.length_cons, pow_succ]
    rcases Decidable.em (f ≠ 0) with h | h <;> simp [h] <;> omega

theorem testBit_movemask (fs : List Nat) (i : Nat) :
    (movemask_u8x8 fs).testBit i =
      (decide (i < fs.length) && decide (fs.getD i 0 ≠ 0)) := by
  induction fs generalizing i with
  | nil => simp [movemask_u8x8]
  | cons f fs ih =>
    set b : Nat := if f ≠ 0 then 1 else 0 with hb
    have hble : b ≤ 1 := by rw [hb]; split <;> omega
    cases i with
    | zero =>
      rw [movemask_u8x8, Nat.testBit_zero]
      have hmod : (b + 2 * movemask_u8x8 fs) % 2 = b := by omega
      rw [hmod, hb]
      rcases Decidable.em (f ≠ 0) with h | h <;> simp [h]
    | succ i =>
      rw [movemask_u8x8, Nat.testBit_add_one]
      have hdiv : (b + 2 * movemask_u8x8 fs) / 2 = movemask_u8x8 fs := by omega
      rw [hdiv, ih]
      simp [Nat.succ_lt_succ_iff]

/-- The lanes kept for a given mask, in order: the loop body of
generate_shuffle_table / generate_compress_table keeps lane index `lane`
iff `(mask & (1 << lane)) != 0`. -/
def keptLanes (mask : Nat) : List Nat :=
  (List.range 8).filter (fun lane => decide (mask &&& (1 <<< lane) ≠ 0))

/-- One row of the compile-time shuffle table: the kept lane indices in
order, remaining entries left at the 0xFF fill. -/
def shuffle_table_row (width mask : Nat) : List Nat :=
  keptLanes mask ++ List.replicate (width - (keptLanes mask).length) 255

/-- SHUF8_TABLE row (remove_chars_from_strings.rs): 8-wide rows. -/
def SHUF8_TABLE (mask : Nat) : List Nat := shuffle_table_row 8 mask

/-- COMPRESS_TABLE row (escape_strings.rs): 16-wide rows, same kept lanes. -/
def COMPRESS_TABLE (mask : Nat) : List Nat := shuffle_table_row 16 mask

/-- vtbl1_u8: lane i of the result is `v[idx[i]]`, or 0 when the index is
out of range (0xFF fill entries). -/
def vtbl1_u8 (v idx : List Nat) : List Nat :=
  (List.range 8).map (fun i => if idx.getD i 0 < 8 then v.getD (idx.getD i 0) 0 else 0)

/-- The sub-sequence of `v` at the positions where the comparison-result
vector `fs` is nonzero (the lanes a compress step keeps). -/
def maskSelect : List Nat → List Nat → List Nat
  | v :: vs, f :: fs => if f ≠ 0 then v :: maskSelect vs fs else maskSelect vs fs
  | _, _ => []

theorem maskSelect_length (v fs : List Nat) (h : v.length = fs.length) :
    (maskSelect v fs).length = count_ones (movemask_u8x8 fs) := by
  induction v generalizing fs with
  | nil =>
    cases fs with
    | nil => simp [maskSelect, movemask_u8x8, count_ones]
    | cons f fs => simp at h
  | cons a v ih =>
    cases fs with
    | nil => simp at h
    | cons f fs =>
      rw [movemask_u8x8, count_ones_bit _ _ (by split <;> omega)]
      rcases Decidable.em (f ≠ 0) with hf | hf <;>
        simp [maskSelect, hf, ih fs (by simpa using h)] <;> omega

theorem keptLanes_cond (mask lane : Nat) :
    decide (mask &&& (1 <<< lane) ≠ 0) = mask.testBit lane := by
  have h1 : (1 : Nat) <<< lane = 2 ^ lane := by
    rw [Nat.shiftLeft_eq, one_mul]
  rw [h1, Nat.and_two_pow]
  cases h : mask.testBit lane <;> simp [h]

theorem range_map_getD_take (g : Nat → Nat) (row : List Nat) (n : Nat)
    (h : n ≤ row.length) :
    (List.range n).map (fun i => g (row.getD i 0)) = (row.take n).map g := by
  induction row generalizing n with
  | nil => simp [Nat.le_zero.mp (by simpa using h)]
  | cons r row ih =>
    cases n with
    | zero => simp
    | succ n =>
      rw [List.range_succ_eq_map]
      simp only [List.map_cons, List.map_map, List.getD_cons_zero, List.take_succ_cons]
      congr 1
      have hc : ((fun i => g ((r :: row).getD i 0)) ∘ Nat.succ) =
          (fun i => g (row.getD i 0)) := by
        funext i
        simp
      rw [hc, ih n (by simpa using h)]

theorem filterIndex_map (v fs : List Nat) (h : v.length = fs.length) :
    ((List.range fs.length).filter (fun lane => decide (fs.getD lane 0 ≠ 0))).map
        (fun e => v.getD e 0) = maskSelect v fs := by
  induction v generalizing fs with
  | nil =>
    cases fs with
    | nil => simp [maskSelect]
    | cons f fs => simp at h
  | cons a v ih =>
    cases fs with
    | nil => simp at h
    | cons f fs =>
      have hcomp : ((fun lane => decide ((f :: fs).getD lane 0 ≠ 0)) ∘ Nat.succ) =
          (fun lane => decide (fs.getD lane 0 ≠ 0)) := by
        funext lane
        simp
      have hmapped : ((List.filter (fun lane => decide (fs.getD lane 0 ≠ 0))
              (List.range fs.length)).map Nat.succ).map (fun e => (a :: v).getD e 0) =
            maskSelect v fs := by
        rw [List.map_map]
        have hc2 : ((fun e => (a :: v).getD e 0) ∘ Nat.succ) = fun e => v.getD e 0 := by
          funext e
          simp
        rw [hc2, ih fs (by simpa using h)]
      rcases Decidable.em (f ≠ 0) with hf | hf
      · rw [List.length_cons, List.range_succ_eq_map, List.filter_cons, List.filter_map,
          hcomp]
        simp only [List.getD_cons_zero]
        rw [if_pos (by simpa using hf), List.map_cons, hmapped]
        simp [maskSelect, hf]
      · have hf0 : f = 0 := by omega
        rw [List.length_cons, List.range_succ_eq_map, List.filter_cons, List.filter_map,
          hcomp]
        simp only [List.getD_cons_zero]
        rw [if_neg (by simp [hf0]), hmapped]
        simp [maskSelect, hf0]

theorem keptLanes_movemask (fs : List Nat) (h8 : fs.length = 8) :
    keptLanes (movemask_u8x8 fs) =
      (List.range 8).filter (fun lane => decide (fs.getD lane 0 ≠ 0)) := by
  unfold keptLanes
  apply List.filter_congr
  intro lane hlane
  rw [keptLanes_cond, testBit_movemask, h8]
  simp [List.mem_range.mp hlane]

theorem maskSelect_eq_kept_map (v fs : List Nat) (hv : v.length = 8)
    (hf : fs.length = 8) :
    (keptLanes (movemask_u8x8 fs)).map
        (fun e => if e < 8 then v.getD e 0 else 0) = maskSelect v fs := by
  rw [keptLanes_movemask fs hf]
  have hmem : ∀ e ∈ (List.range 8).filter (fun lane => decide (fs.getD lane 0 ≠ 0)),
      (if e < 8 then v.getD e 0 else 0) = v.getD e 0 := by
    intro e he
    have := List.mem_range.mp (List.mem_of_mem_filter he)
    simp [this]
  rw [List.map_congr_left hmem, ← hf, filterIndex_map v fs (by omega)]

theorem keptLanes_le_length (mask : Nat) : (keptLanes mask).length ≤ 8 := by
  have := List.length_filter_le (fun lane => decide (mask &&& (1 <<< lane) ≠ 0))
    (List.range 8)
  simpa [keptLanes] using this

/-- The compress step: looking up the shuffle-table row for the movemask of
the comparison-result lanes and applying vtbl1 yields exactly the kept
lanes, in order, in the first `count_ones mask` output bytes. -/
theorem compress_take (v fs : List Nat) (hv : v.length = 8) (hf : fs.length = 8)
    (w : Nat) (hw : 8 ≤ w) :
    (vtbl1_u8 v (shuffle_table_row w (movemask_u8x8 fs))).take
        (count_ones (movemask_u8x8 fs)) = maskSelect v fs ∧
      count_ones (movemask_u8x8 fs) = (maskSelect v fs).length := by
  set m := movemask_u8x8 fs with hm
  set g : Nat → Nat := fun e => if e < 8 then v.getD e 0 else 0 with hg
  have hkl : (keptLanes m).length ≤ 8 := keptLanes_le_length m
  have hrowlen : (shuffle_table_row w m).length = w := by
    simp [shuffle_table_row]
    omega
  have hv8 : vtbl1_u8 v (shuffle_table_row w m) =
      ((shuffle_table_row w m).take 8).map g := by
    rw [vtbl1_u8]
    exact range_map_getD_take g _ 8 (by omega)
  have htake8 : (shuffle_table_row w m).take 8 =
      keptLanes m ++ List.replicate (8 - (keptLanes m).length) 255 := by
    rw [shuffle_table_row, List.take_append_eq_append_take,
      List.take_of_length_le hkl, List.take_replicate]
    congr 1
    congr 1
    omega
  have hked : (keptLanes m).map g = maskSelect v fs := maskSelect_eq_kept_map v fs hv hf
  have hcnt : count_ones m = (maskSelect v fs).length := by
    rw [hm]
    exact (maskSelect_length v fs (by omega)).symm
  constructor
  · rw [hv8, htake8, List.map_append, hcnt, ← hked, List.take_left]
  · exact hcnt

/-! ### Compaction (remove_chars_from_strings.rs) -/

/-- Prepend a cursor pair to the trace component of a loop result. -/
def consTrace (s : Nat × Nat) (r : List Nat × Nat × List (Nat × Nat)) :
    List Nat × Nat × List (Nat × Nat) :=
  (r.1, r.2.1, s :: r.2.2)

/-- The byte-at-a-time compaction loop of remove_chars_from_strings_scalar
(also the scalar tail loop of remove_byte_neon, which is the same loop):
read `buf[i]`, keep it at `buf[out]` when it differs from `rem`.  Returns
the final buffer, the output cursor, and the (input, output) cursor pair at
every iteration (head of the loop) plus the final pair. -/
def removeScalarLoop (rem : Nat) (buf : List Nat) (i out : Nat) :
    List Nat × Nat × List (Nat × Nat) :=
  if h : i < buf.length then
    if buf.getD i 0 ≠ rem then
      consTrace (i, out) (removeScalarLoop rem (buf.set out (buf.getD i 0)) (i + 1) (out + 1))
    else
      consTrace (i, out) (removeScalarLoop rem buf (i + 1) out)
  else (buf, out, [(i, out)])
termination_by buf.length - i
decreasing_by all_goals simp; omega

/-- remove_chars_from_strings_scalar: returns the mutated buffer and the
new length. -/
def remove_chars_from_strings_scalar (buf : List Nat) (rem : Nat) : List Nat × Nat :=
  ((removeScalarLoop rem buf 0 0).1, (removeScalarLoop rem buf 0 0).2.1)

/-- In-bounds read of `n` consecutive bytes at offset `p` (vld1q_u8 and
friends; all uses are guarded so that `p + n` is within the buffer). -/
def readBytes (buf : List Nat) (p n : Nat) : List Nat :=
  (List.range n).map (fun t => buf.getD (p + t) 0)

def vdup_n_u8 (c : Nat) : List Nat := List.replicate 8 c

def vceq_u8 (a b : List Nat) : List Nat :=
  (List.range 8).map (fun i => if a.getD i 0 = b.getD i 0 then 255 else 0)

def vmvn_u8 (a : List Nat) : List Nat :=
  (List.range 8).map (fun i => 255 ^^^ a.getD i 0)

/-- compress8: shuffle the kept lanes of `input` to the front (via the
SHUF8_TABLE row for `mask`) and store all 8 result bytes at `outp`;
returns the new buffer and the kept-lane count. -/
def compress8 (input : List Nat) (mask : Nat) (buf : List Nat) (outp : Nat) :
    List Nat × Nat :=
  let shuffle_indices := SHUF8_TABLE mask
  let packed := vtbl1_u8 input shuffle_indices
  let kept := count_ones mask
  (storeBytes buf outp packed, kept)

/-- One 16-byte block iteration of remove_byte_neon: load the block, split
into low/high halves, classify each half against `rem`, movemask, compress
each half to the output cursor.  Returns the new buffer and output cursor. -/
def removeNeonStep (rem : Nat) (buf : List Nat) (p out : Nat) : List Nat × Nat :=
  let block := readBytes buf p 16
  let lo := block.take 8
  let hi := block.drop 8
  let keep_lo := vmvn_u8 (vceq_u8 lo (vdup_n_u8 rem))
  let keep_hi := vmvn_u8 (vceq_u8 hi (vdup_n_u8 rem))
  let mask_lo := movemask_u8x8 keep_lo
  let mask_hi := movemask_u8x8 keep_hi
  let c1 := compress8 lo mask_lo buf out
  let c2 := compress8 hi mask_hi c1.1 (out + c1.2)
  (c2.1, out + c1.2 + c2.2)

theorem removeNeonStep_length (rem : Nat) (buf : List Nat) (p out : Nat) :
    (removeNeonStep rem buf p out).1.length = buf.length := by
  simp [removeNeonStep, compress8, length_storeBytes]

/-- The 16-bytes-per-iteration block loop of remove_byte_neon, followed by
the scalar tail loop; same return convention as removeScalarLoop. -/
def removeNeonLoop (rem : Nat) (buf : List Nat) (p out : Nat) :
    List Nat × Nat × List (Nat × Nat) :=
  if h : p + 16 ≤ buf.length then
    consTrace (p, out)
      (removeNeonLoop rem (removeNeonStep rem buf p out).1 (p + 16)
        (removeNeonStep rem buf p out).2)
  else
    consTrace (p, out) (removeScalarLoop rem buf p out)
termination_by buf.length - p
decreasing_by simp [removeNeonStep_length]; omega

/-- remove_byte_neon: returns the mutated buffer and the new length
(out_ptr minus the buffer base). -/
def remove_byte_neon (buf : List Nat) (rem : Nat) : List Nat × Nat :=
  ((removeNeonLoop rem buf 0 0).1, (removeNeonLoop rem buf 0 0).2.1)

theorem length_readBytes (buf : List Nat) (p n : Nat) :
    (readBytes buf p n).length = n := by
  simp [readBytes]

theorem readBytes_eq (buf : List Nat) (p n : Nat) (h : p + n ≤ buf.length) :
    readBytes buf p n = (buf.drop p).take n := by
  apply List.ext_getElem
  · simp [readBytes]
    omega
  · intro j h1 h2
    have hj : j < n := by simpa [readBytes] using h1
    have hpj : p + j < buf.length := by omega
    simp only [readBytes, List.getElem_map, List.getElem_range, List.getElem_take,
      List.getElem_drop]
    rw [List.getD_eq_getElem buf 0 hpj]

theorem keepFlags_eq (rem : Nat) (lo : List Nat) (h : lo.length = 8) :
    vmvn_u8 (vceq_u8 lo (vdup_n_u8 rem)) =
      lo.map (fun b => if b = rem then 0 else 255) := by
  apply List.ext_getElem
  · simp [vmvn_u8, h]
  · intro j h1 h2
    have hj : j < 8 := by simpa [vmvn_u8] using h1
    have hrep : (vdup_n_u8 rem).getD j 0 = rem := by
      rw [vdup_n_u8, List.getD_eq_getElem _ 0 (by rw [List.length_replicate]; omega),
        List.getElem_replicate]
    have hjl : j < lo.length := by omega
    have hlo : lo.getD j 0 = lo[j] := List.getD_eq_getElem lo 0 hjl
    simp only [vmvn_u8, vceq_u8, List.getElem_map, List.getElem_range]
    rw [getD_range_map 8 j _ 0 hj, hrep, hlo]
    by_cases hb : lo[j] = rem <;> simp [hb]

theorem maskSelect_keepmap (rem : Nat) (v : List Nat) :
    maskSelect v (v.map (fun b => if b = rem then 0 else 255)) =
      v.filter (fun b => decide (b ≠ rem)) := by
  induction v with
  | nil => simp [maskSelect]
  | cons a v ih =>
    by_cases ha : a = rem <;> simp [maskSelect, ha, ih]

theorem removeScalarLoop_spec (rem : Nat) (n : Nat) :
    ∀ (buf : List Nat) (i out : Nat), buf.length - i = n → out ≤ i →
      i ≤ buf.length →
      (removeScalarLoop rem buf i out).2.1 =
          out + ((buf.drop i).filter (fun b => decide (b ≠ rem))).length ∧
        (removeScalarLoop rem buf i out).1.take ((removeScalarLoop rem buf i out).2.1) =
          buf.take out ++ (buf.drop i).filter (fun b => decide (b ≠ rem)) ∧
        (removeScalarLoop rem buf i out).1.length = buf.length := by
  induction n with
  | zero =>
    intro buf i out hn hoi hil
    have hi : i = buf.length := by omega
    rw [removeScalarLoop, dif_neg (by omega)]
    subst hi
    simp [List.take_of_length_le (List.length_take_le _ _)]
  | succ n ih =>
    intro buf i out hn hoi hil
    have hi : i < buf.length := by omega
    have hout : out < buf.length := by omega
    have hdrop : buf.drop i = buf.getD i 0 :: buf.drop (i + 1) := by
      rw [List.getD_eq_getElem buf 0 hi]
      exact List.drop_eq_getElem_cons hi
    rw [removeScalarLoop, dif_pos hi]
    by_cases hb : buf.getD i 0 ≠ rem
    · rw [if_pos hb]
      have hlen : (buf.set out (buf.getD i 0)).length - (i + 1) = n := by simp; omega
      obtain ⟨e1, e2, e3⟩ := ih (buf.set out (buf.getD i 0)) (i + 1) (out + 1) hlen
        (by omega) (by simp; omega)
      have hd : (buf.set out (buf.getD i 0)).drop (i + 1) = buf.drop (i + 1) :=
        drop_set_of_lt buf out (i + 1) _ (by omega)
      have hfil : (buf.drop i).filter (fun b => decide (b ≠ rem)) =
          buf.getD i 0 :: (buf.drop (i + 1)).filter (fun b => decide (b ≠ rem)) := by
        rw [hdrop, List.filter_cons, if_pos (by simpa using hb)]
      refine ⟨?_, ?_, ?_⟩
      · simp only [consTrace]
        rw [e1, hd, hfil]
        simp
        omega
      · simp only [consTrace]
        rw [e2, hd, hfil, set_take_succ buf out _ hout]
        simp
      · simp only [consTrace]
        rw [e3]
        simp
    · rw [if_neg hb]
      have hb' : buf.getD i 0 = rem := by omega
      obtain ⟨e1, e2, e3⟩ := ih buf (i + 1) out (by omega) (by omega) (by omega)
      have hfil : (buf.drop i).filter (fun b => decide (b ≠ rem)) =
          (buf.drop (i + 1)).filter (fun b => decide (b ≠ rem)) := by
        rw [hdrop, List.filter_cons, if_neg (by simpa using hb')]
      refine ⟨?_, ?_, ?_⟩
      · simp only [consTrace]
        rw [e1, hfil]
      · simp only [consTrace]
        rw [e2, hfil]
      · simp only [consTrace]
        rw [e3]

theorem length_vtbl1 (v idx : List Nat) : (vtbl1_u8 v idx).length = 8 := by
  simp [vtbl1_u8]

theorem take_append_left_of_eq (A B : List Nat) (n k : Nat) (h : A.length = n) :
    (A ++ B).take (n + k) = A ++ B.take k := by
  rw [List.take_append_eq_append_take, List.take_of_length_le (by omega)]
  congr 1
  congr 1
  omega

theorem removeNeonStep_spec (rem : Nat) (buf : List Nat) (p out : Nat)
    (hp : p + 16 ≤ buf.length) (ho : out ≤ p) :
    (removeNeonStep rem buf p out).2 =
        out + (((buf.drop p).take 16).filter (fun b => decide (b ≠ rem))).length ∧
      (removeNeonStep rem buf p out).1.take ((removeNeonStep rem buf p out).2) =
        buf.take out ++ ((buf.drop p).take 16).filter (fun b => decide (b ≠ rem)) ∧
      (removeNeonStep rem buf p out).1.drop (p + 16) = buf.drop (p + 16) := by
  have hblock : readBytes buf p 16 = (buf.drop p).take 16 := readBytes_eq buf p 16 hp
  have hblock_len : ((buf.drop p).take 16).length = 16 := by simp; omega
  have hlo_len : (((buf.drop p).take 16).take 8).length = 8 := by simp; omega
  have hhi_len : (((buf.drop p).take 16).drop 8).length = 8 := by simp; omega
  simp only [removeNeonStep, compress8, SHUF8_TABLE, hblock]
  set lo := ((buf.drop p).take 16).take 8 with hlo
  set hi := ((buf.drop p).take 16).drop 8 with hhi
  set pred : Nat → Bool := fun b => decide (b ≠ rem) with hpred
  set Flo := lo.filter pred with hFlo
  set Fhi := hi.filter pred with hFhi
  have hflags_lo : vmvn_u8 (vceq_u8 lo (vdup_n_u8 rem)) =
      lo.map (fun b => if b = rem then 0 else 255) := keepFlags_eq rem lo hlo_len
  have hflags_hi : vmvn_u8 (vceq_u8 hi (vdup_n_u8 rem)) =
      hi.map (fun b => if b = rem then 0 else 255) := keepFlags_eq rem hi hhi_len
  rw [hflags_lo, hflags_hi]
  set flags_lo := lo.map (fun b => if b = rem then 0 else 255) with hfl
  set flags_hi := hi.map (fun b => if b = rem then 0 else 255) with hfh
  obtain ⟨hcl_take, hcl_cnt⟩ :=
    compress_take lo flags_lo hlo_len (by rw [hfl]; simp [hlo_len]) 8 le_rfl
  obtain ⟨hch_take, hch_cnt⟩ :=
    compress_take hi flags_hi hhi_len (by rw [hfh]; simp [hhi_len]) 8 le_rfl
  have hsel_lo : maskSelect lo flags_lo = Flo := maskSelect_keepmap rem lo
  have hsel_hi : maskSelect hi flags_hi = Fhi := maskSelect_keepmap rem hi
  rw [hsel_lo] at hcl_take hcl_cnt
  rw [hsel_hi] at hch_take hch_cnt
  rw [hcl_cnt] at hcl_take
  rw [hch_cnt] at hch_take
  have hkl8 : Flo.length ≤ 8 := by
    rw [hFlo]
    calc (lo.filter pred).length ≤ lo.length := List.length_filter_le pred lo
    _ = 8 := hlo_len
  have hkh8 : Fhi.length ≤ 8 := by
    rw [hFhi]
    calc (hi.filter pred).length ≤ hi.length := List.length_filter_le pred hi
    _ = 8 := hhi_len
  set packed_lo := vtbl1_u8 lo (shuffle_table_row 8 (movemask_u8x8 flags_lo)) with hplo
  set packed_hi := vtbl1_u8 hi (shuffle_table_row 8 (movemask_u8x8 flags_hi)) with hphi
  have hplo_len : packed_lo.length = 8 := length_vtbl1 _ _
  have hphi_len : packed_hi.length = 8 := length_vtbl1 _ _
  rw [hcl_cnt, hch_cnt]
  set buf1 := storeBytes buf out packed_lo with hbuf1
  set buf2 := storeBytes buf1 (out + Flo.length) packed_hi with hbuf2
  have hout_le : out ≤ buf.length := by omega
  have hbuf1_len : buf1.length = buf.length := length_storeBytes _ _ _
  have hbuf2_len : buf2.length = buf.length := by
    rw [hbuf2, length_storeBytes, hbuf1_len]
  have h1full : buf1.take (out + 8) = buf.take out ++ packed_lo := by
    have := take_storeBytes_full packed_lo buf out (by rw [hplo_len]; omega)
    rwa [hplo_len] at this
  have h1 : buf1.take (out + Flo.length) = buf.take out ++ Flo := by
    have e : out + Flo.length = min (out + Flo.length) (out + 8) := by omega
    rw [e, ← List.take_take, h1full,
      take_append_left_of_eq _ _ out Flo.length (by simp [hout_le]), hcl_take]
  have h2keep : buf2.take (out + Flo.length) = buf1.take (out + Flo.length) :=
    take_storeBytes_of_le packed_hi buf1 (out + Flo.length) (out + Flo.length) le_rfl
  have h2full : buf2.take (out + Flo.length + 8) =
      buf1.take (out + Flo.length) ++ packed_hi := by
    have := take_storeBytes_full packed_hi buf1 (out + Flo.length)
      (by rw [hphi_len, hbuf1_len]; omega)
    rwa [hphi_len] at this
  have h2 : buf2.take (out + Flo.length + Fhi.length) =
      buf.take out ++ Flo ++ Fhi := by
    have e : out + Flo.length + Fhi.length =
        min (out + Flo.length + Fhi.length) (out + Flo.length + 8) := by omega
    rw [e, ← List.take_take, h2full, h1,
      take_append_left_of_eq _ _ (out + Flo.length) Fhi.length (by simp [hout_le]),
      hch_take]
  have hdrop1 : buf1.drop (p + 16) = buf.drop (p + 16) :=
    drop_storeBytes_of_le packed_lo buf out (p + 16) (by rw [hplo_len]; omega)
  have hdrop2 : buf2.drop (p + 16) = buf1.drop (p + 16) :=
    drop_storeBytes_of_le packed_hi buf1 (out + Flo.length) (p + 16)
      (by rw [hphi_len]; omega)
  have hsplit : (buf.drop p).take 16 = lo ++ hi := (List.take_append_drop 8 _).symm
  have hfilter_split : ((buf.drop p).take 16).filter pred = Flo ++ Fhi := by
    rw [hsplit, List.filter_append]
  refine ⟨?_, ?_, ?_⟩
  · rw [hfilter_split]
    simp
    omega
  · rw [hfilter_split, h2, List.append_assoc]
  · rw [hdrop2, hdrop1]

theorem removeNeonLoop_spec (rem : Nat) :
    ∀ (n : Nat) (buf : List Nat) (p out : Nat), buf.length - p = n → out ≤ p →
      p ≤ buf.length →
      (removeNeonLoop rem buf p out).2.1 =
          out + ((buf.drop p).filter (fun b => decide (b ≠ rem))).length ∧
        (removeNeonLoop rem buf p out).1.take ((removeNeonLoop rem buf p out).2.1) =
          buf.take out ++ (buf.drop p).filter (fun b => decide (b ≠ rem)) ∧
        (removeNeonLoop rem buf p out).1.length = buf.length := by
  intro n
  induction n using Nat.strong_induction_on with
  | _ n ih =>
    intro buf p out hn hop hpl
    by_cases h : p + 16 ≤ buf.length
    · rw [removeNeonLoop, dif_pos h]
      obtain ⟨s1, s2, s3⟩ := removeNeonStep_spec rem buf p out h hop
      have hBlen : (removeNeonStep rem buf p out).1.length = buf.length :=
        removeNeonStep_length rem buf p out
      have hblock16 : (((buf.drop p).take 16).filter
          (fun b => decide (b ≠ rem))).length ≤ 16 := by
        calc (((buf.drop p).take 16).filter (fun b => decide (b ≠ rem))).length
            ≤ ((buf.drop p).take 16).length := List.length_filter_le _ _
        _ ≤ 16 := by simp
      have hO : (removeNeonStep rem buf p out).2 ≤ p + 16 := by omega
      obtain ⟨e1, e2, e3⟩ := ih (buf.length - (p + 16)) (by omega)
        (removeNeonStep rem buf p out).1 (p + 16) (removeNeonStep rem buf p out).2
        (by omega) hO (by omega)
      have hsplit : buf.drop p =
          (buf.drop p).take 16 ++ buf.drop (p + 16) := by
        have h16 : (buf.drop p).drop 16 = buf.drop (p + 16) := by
          rw [List.drop_drop]
        rw [← h16, List.take_append_drop]
      have hfsplit : (buf.drop p).filter (fun b => decide (b ≠ rem)) =
          ((buf.drop p).take 16).filter (fun b => decide (b ≠ rem)) ++
            (buf.drop (p + 16)).filter (fun b => decide (b ≠ rem)) := by
        conv_lhs => rw [hsplit]
        rw [List.filter_append]
      rw [s3] at e1 e2
      refine ⟨?_, ?_, ?_⟩
      · simp only [consTrace]
        rw [e1, s1, hfsplit]
        simp
        omega
      · simp only [consTrace]
        rw [e2, s2, hfsplit, List.append_assoc]
      · simp only [consTrace]
        rw [e3, hBlen]
    · rw [removeNeonLoop, dif_neg h]
      obtain ⟨e1, e2, e3⟩ := removeScalarLoop_spec rem (buf.length - p) buf p out rfl hop hpl
      exact ⟨e1, e2, e3⟩

theorem removeScalarLoop_trace (rem : Nat) (n : Nat) :
    ∀ (buf : List Nat) (i out : Nat), buf.length - i = n → out ≤ i →
      ∀ s ∈ (removeScalarLoop rem buf i out).2.2, s.2 ≤ s.1 := by
  induction n with
  | zero =>
    intro buf i out hn hoi s hs
    rw [removeScalarLoop, dif_neg (by omega)] at hs
    simp at hs
    subst hs
    exact hoi
  | succ n ih =>
    intro buf i out hn hoi s hs
    have hi : i < buf.length := by omega
    rw [removeScalarLoop, dif_pos hi] at hs
    by_cases hb : buf.getD i 0 ≠ rem
    · rw [if_pos hb] at hs
      simp only [consTrace, List.mem_cons] at hs
      rcases hs with rfl | hs
      · exact hoi
      · exact ih (buf.set out (buf.getD i 0)) (i + 1) (out + 1) (by simp; omega)
          (by omega) s hs
    · rw [if_neg hb] at hs
      simp only [consTrace, List.mem_cons] at hs
      rcases hs with rfl | hs
      · exact hoi
      · exact ih buf (i + 1) out (by omega) (by omega) s hs

theorem removeNeonLoop_trace (rem : Nat) :
    ∀ (n : Nat) (buf : List Nat) (p out : Nat), buf.length - p = n → out ≤ p →
      p ≤ buf.length →
      ∀ s ∈ (removeNeonLoop rem buf p out).2.2, s.2 ≤ s.1 := by
  intro n
  induction n using Nat.strong_induction_on with
  | _ n ih =>
    intro buf p out hn hop hpl s hs
    by_cases h : p + 16 ≤ buf.length
    · rw [removeNeonLoop, dif_pos h] at hs
      simp only [consTrace, List.mem_cons] at hs
      rcases hs with rfl | hs
      · exact hop
      · obtain ⟨s1, _, _⟩ := removeNeonStep_spec rem buf p out h hop
        have hblock16 : (((buf.drop p).take 16).filter
            (fun b => decide (b ≠ rem))).length ≤ 16 := by
          calc (((buf.drop p).take 16).filter (fun b => decide (b ≠ rem))).length
              ≤ ((buf.drop p).take 16).length := List.length_filter_le _ _
          _ ≤ 16 := by simp
        have hBlen : (removeNeonStep rem buf p out).1.length = buf.length :=
          removeNeonStep_length rem buf p out
        exact ih (buf.length - (p + 16)) (by omega) (removeNeonStep rem buf p out).1
          (p + 16) (removeNeonStep rem buf p out).2 (by omega) (by omega) (by omega) s hs
    · rw [removeNeonLoop, dif_neg h] at hs
      simp only [consTrace, List.mem_cons] at hs
      rcases hs with rfl | hs
      · exact hop
      · exact removeScalarLoop_trace rem (buf.length - p) buf p out rfl hop s hs

/-- C1: for every buffer B and byte r, the compaction transform — scalar
remove_chars_from_strings_scalar and vector remove_byte_neon — returns a
length equal to the count of bytes in B not equal to r, and the first
that-many bytes of the buffer after the call are, in order, the
subsequence of B with every occurrence of r removed. -/
theorem C1_compaction_correct (buf : List Nat) (rem : Nat) :
    (remove_chars_from_strings_scalar buf rem).2 =
        buf.countP (fun b => decide (b ≠ rem)) ∧
      (remove_chars_from_strings_scalar buf rem).1.take
          ((remove_chars_from_strings_scalar buf rem).2) =
        buf.filter (fun b => decide (b ≠ rem)) ∧
      (remove_byte_neon buf rem).2 = buf.countP (fun b => decide (b ≠ rem)) ∧
      (remove_byte_neon buf rem).1.take ((remove_byte_neon buf rem).2) =
        buf.filter (fun b => decide (b ≠ rem)) := by
  obtain ⟨e1, e2, e3⟩ := removeScalarLoop_spec rem buf.length buf 0 0 (by omega)
    le_rfl (by omega)
  obtain ⟨f1, f2, f3⟩ := removeNeonLoop_spec rem buf.length buf 0 0 (by omega)
    le_rfl (by omega)
  rw [List.drop_zero] at e1 e2 f1 f2
  simp only [List.take_zero, List.nil_append] at e2 f2
  refine ⟨?_, ?_, ?_, ?_⟩
  · rw [remove_chars_from_strings_scalar]
    simp only [e1]
    rw [List.countP_eq_length_filter]
    omega
  · rw [remove_chars_from_strings_scalar]
    exact e2
  · rw [remove_byte_neon]
    simp only [f1]
    rw [List.countP_eq_length_filter]
    omega
  · rw [remove_byte_neon]
    exact f2

/-- C8: throughout the in-place compaction, both scalar and vector, every
(input cursor, output cursor) pair visited by the loops satisfies
output ≤ input, so no input byte is overwritten before it has been read. -/
theorem C8_inplace_cursor_invariant (buf : List Nat) (rem : Nat) :
    (∀ s ∈ (removeScalarLoop rem buf 0 0).2.2, s.2 ≤ s.1) ∧
      (∀ s ∈ (removeNeonLoop rem buf 0 0).2.2, s.2 ≤ s.1) :=
  ⟨removeScalarLoop_trace rem buf.length buf 0 0 (by omega) le_rfl,
    removeNeonLoop_trace rem buf.length buf 0 0 (by omega) le_rfl (by omega)⟩

theorem C8_inplace_cursor_invariant_witness :
    ((2, 1) ∈ (removeScalarLoop 1 [1, 2, 1] 0 0).2.2 ∧ 1 ≤ 2) ∧
      ((0, 0) ∈ (removeNeonLoop 1 [1, 2, 1] 0 0).2.2 ∧ 0 ≤ 0) := by
  have hmem1 : (2, 1) ∈ (removeScalarLoop 1 [1, 2, 1] 0 0).2.2 := by
    simp [removeScalarLoop, consTrace]
  have hmem2 : (0, 0) ∈ (removeNeonLoop 1 [1, 2, 1] 0 0).2.2 := by
    simp [removeNeonLoop, removeScalarLoop, consTrace]
  exact ⟨⟨hmem1, (C8_inplace_cursor_invariant [1, 2, 1] 1).1 (2, 1) hmem1⟩,
    ⟨hmem2, (C8_inplace_cursor_invariant [1, 2, 1] 1).2 (0, 0) hmem2⟩⟩

/-! ### Content-driven expansion (escape_strings.rs) -/

/-- The escaped byte sequence at the specification level: every quote
(0x22 = 34) or backslash (0x5C = 92) is preceded by an inserted backslash;
all other bytes pass through unchanged. -/
def escapeBytes : List Nat → List Nat
  | [] => []
  | b :: rest =>
    if b = 92 ∨ b = 34 then 92 :: b :: escapeBytes rest else b :: escapeBytes rest

theorem length_escapeBytes (l : List Nat) :
    (escapeBytes l).length =
      l.length + l.countP (fun b => decide (b = 92 ∨ b = 34)) := by
  induction l with
  | nil => simp [escapeBytes]
  | cons b rest ih =>
    by_cases hb : b = 92 ∨ b = 34 <;>
      simp [escapeBytes, hb, ih, List.countP_cons] <;> omega

/-- escape_json_scalar: iterate over the input; when the byte is a
backslash or quote, first write a backslash at `out_idx`, then write the
byte itself; each write `output[out_idx] = _` is a checked slice index,
and an out-of-bounds write panics — modelled as `Except.error` carrying
the output buffer as mutated so far. -/
def escape_json_scalar_go : List Nat → List Nat → Nat → Except (List Nat) (List Nat × Nat)
  | [], output, out_idx => .ok (output, out_idx)
  | b :: rest, output, out_idx =>
    if b = 92 ∨ b = 34 then
      if out_idx < output.length then
        if out_idx + 1 < output.length then
          escape_json_scalar_go rest ((output.set out_idx 92).set (out_idx + 1) b)
            (out_idx + 2)
        else .error (output.set out_idx 92)
      else .error output
    else
      if out_idx < output.length then
        escape_json_scalar_go rest (output.set out_idx b) (out_idx + 1)
      else .error output

def escape_json_scalar (input output : List Nat) :
    Except (List Nat) (List Nat × Nat) :=
  escape_json_scalar_go input output 0


theorem escape_json_scalar_go_spec (rest : List Nat) :
    ∀ (output : List Nat) (out_idx : Nat),
      out_idx + 2 * rest.length ≤ output.length →
      ∃ o : List Nat,
        escape_json_scalar_go rest output out_idx =
            .ok (o, out_idx + (escapeBytes rest).length) ∧
          o.take (out_idx + (escapeBytes rest).length) =
            output.take out_idx ++ escapeBytes rest ∧
          o.length = output.length := by
  induction rest with
  | nil =>
    intro output out_idx hcap
    exact ⟨output, by simp [escape_json_scalar_go, escapeBytes], by simp [escapeBytes], rfl⟩
  | cons b rest ih =>
    intro output out_idx hcap
    simp only [List.length_cons] at hcap
    by_cases hb : b = 92 ∨ b = 34
    · have h1 : out_idx < output.length := by omega
      have h2 : out_idx + 1 < output.length := by omega
      have h2' : out_idx + 1 < (output.set out_idx 92).length := by simp; omega
      have hesc : escapeBytes (b :: rest) = 92 :: b :: escapeBytes rest := by
        rw [escapeBytes, if_pos hb]
      set output2 := (output.set out_idx 92).set (out_idx + 1) b with ho2
      obtain ⟨o, g1, g2, g3⟩ := ih output2 (out_idx + 2) (by simp [ho2]; omega)
      have htk : output2.take (out_idx + 2) = output.take out_idx ++ [92, b] := by
        have e1 : (output.set out_idx 92).take (out_idx + 1) =
            output.take out_idx ++ [92] := set_take_succ output out_idx 92 h1
        have e2 : output2.take (out_idx + 1 + 1) =
            (output.set out_idx 92).take (out_idx + 1) ++ [b] :=
          set_take_succ (output.set out_idx 92) (out_idx + 1) b h2'
        have harith : out_idx + 2 = out_idx + 1 + 1 := by omega
        rw [harith, e2, e1, List.append_assoc]
        rfl
      refine ⟨o, ?_, ?_, ?_⟩
      · rw [escape_json_scalar_go, if_pos hb, if_pos h1, if_pos (by simpa using h2), g1,
          hesc]
        have harith : out_idx + 2 + (escapeBytes rest).length =
            out_idx + (92 :: b :: escapeBytes rest).length := by simp; omega
        rw [harith]
      · rw [hesc]
        have harith : out_idx + (92 :: b :: escapeBytes rest).length =
            out_idx + 2 + (escapeBytes rest).length := by simp; omega
        rw [harith, g2, htk]
        simp
      · rw [g3, ho2]
        simp
    · have h1 : out_idx < output.length := by omega
      have hesc : escapeBytes (b :: rest) = b :: escapeBytes rest := by
        rw [escapeBytes, if_neg hb]
      set output2 := output.set out_idx b with ho2
      obtain ⟨o, g1, g2, g3⟩ := ih output2 (out_idx + 1) (by simp [ho2]; omega)
      have htk : output2.take (out_idx + 1) = output.take out_idx ++ [b] :=
        set_take_succ output out_idx b h1
      refine ⟨o, ?_, ?_, ?_⟩
      · rw [escape_json_scalar_go, if_neg hb, if_pos h1, g1, hesc]
        have harith : out_idx + 1 + (escapeBytes rest).length =
            out_idx + (b :: escapeBytes rest).length := by simp; omega
        rw [harith]
      · rw [hesc]
        have harith : out_idx + (b :: escapeBytes rest).length =
            out_idx + 1 + (escapeBytes rest).length := by simp; omega
        rw [harith, g2, htk]
        simp
      · rw [g3, ho2]
        simp

/-! ### 16-lane (q-register) vector operations -/

def vdupq_n_u8 (c : Nat) : List Nat := List.replicate 16 c

/-- vmovl_u8 followed by vreinterpretq_u8_u16: widen each byte to a 16-bit
lane; seen as bytes (little endian) the even bytes carry the input, the odd
bytes are zero. -/
def vmovl_u8 : List Nat → List Nat
  | [] => []
  | b :: rest => b :: 0 :: vmovl_u8 rest

def vcombine_u8 (a b : List Nat) : List Nat := a ++ b

def vget_low_u8 (v : List Nat) : List Nat := v.take 8

def vget_high_u8 (v : List Nat) : List Nat := v.drop 8

/-- Lane-wise compare-equal: 0xFF on equality, 0 otherwise. -/
def vceqq_u8 : List Nat → List Nat → List Nat
  | a :: xs, b :: ys => (if a = b then 255 else 0) :: vceqq_u8 xs ys
  | _, _ => []

/-- Lane-wise (byte-wise) bitwise or. -/
def vorrq_u8 : List Nat → List Nat → List Nat
  | a :: xs, b :: ys => (a ||| b) :: vorrq_u8 xs ys
  | _, _ => []

/-- Bit-select: for each bit, take from the second argument where the mask
bit is set, else from the third; per byte that is
(m AND a) OR ((NOT m) AND b). -/
def vbslq_u8 : List Nat → List Nat → List Nat → List Nat
  | m :: ms, a :: xs, b :: ys =>
      ((m &&& a) ||| ((255 ^^^ m) &&& b)) :: vbslq_u8 ms xs ys
  | _, _, _ => []

/-- vextq_u8: lanes n .. n+15 of the 32-lane concatenation of the two
arguments. -/
def vextq_u8 (a b : List Nat) (n : Nat) : List Nat := ((a ++ b).drop n).take 16

/-- vqtbl1q_u8: lane i of the result is `t[idx[i]]`, or 0 when the index
is 16 or more. -/
def vqtbl1q_u8 (t idx : List Nat) : List Nat :=
  idx.map (fun e => if e < 16 then t.getD e 0 else 0)

/-- The odd-position byte mask 0xFF00FF00FF00FF00 (twice), as bytes in
little-endian order. -/
def ODD_POSITIONS : List Nat :=
  [0, 255, 0, 255, 0, 255, 0, 255, 0, 255, 0, 255, 0, 255, 0, 255]

/-- The escaped vector and the to-keep vector computed by escape_8bytes
from one 8-byte chunk (everything before the movemask/compress phase). -/
def escapeVectorPair (input : List Nat) : List Nat × List Nat :=
  let solidus := vdup_n_u8 92
  let quote := vdup_n_u8 34
  let expanded := vmovl_u8 input
  let solidus_expanded := vcombine_u8 solidus solidus
  let is_solidus := vceqq_u8 expanded solidus_expanded
  let quote_expanded := vcombine_u8 quote quote
  let is_quote := vceqq_u8 expanded quote_expanded
  let is_quote_or_solidus := vorrq_u8 is_solidus is_quote
  let to_keep := vorrq_u8 is_quote_or_solidus ODD_POSITIONS
  let shifted := vextq_u8 (vdupq_n_u8 0) expanded 15
  let escaped := vbslq_u8 is_quote_or_solidus solidus_expanded shifted
  (escaped, to_keep)

/-- escape_8bytes: classify, build the escaped/to-keep vectors, movemask
each half, compress through COMPRESS_TABLE and store 8 bytes per half at
the output cursor; returns the new output buffer and the number of kept
bytes.  (vld1_u8 on a COMPRESS_TABLE row reads the first 8 of its 16
entries.) -/
def escape_8bytes (input : List Nat) (output : List Nat) (outp : Nat) :
    List Nat × Nat :=
  let escaped := (escapeVectorPair input).1
  let to_keep := (escapeVectorPair input).2
  let escaped_lo := vget_low_u8 escaped
  let escaped_hi := vget_high_u8 escaped
  let to_keep_lo := vget_low_u8 to_keep
  let to_keep_hi := vget_high_u8 to_keep
  let mask_lo := movemask_u8x8 to_keep_lo
  let mask_hi := movemask_u8x8 to_keep_hi
  let compressed_lo := vtbl1_u8 escaped_lo ((COMPRESS_TABLE mask_lo).take 8)
  let kept_lo := count_ones mask_lo
  let out1 := storeBytes output outp compressed_lo
  let compressed_hi := vtbl1_u8 escaped_hi ((COMPRESS_TABLE mask_hi).take 8)
  let kept_hi := count_ones mask_hi
  let out2 := storeBytes out1 (outp + kept_lo) compressed_hi
  (out2, kept_lo + kept_hi)

/-- The byte-at-a-time tail loop of escape_json_neon: for each remaining
byte, write a backslash first when it is a backslash or quote, then the
byte itself, advancing the output cursor (unchecked raw-pointer writes). -/
def escape_scalar_tail : List Nat → List Nat → Nat → List Nat × Nat
  | [], output, outp => (output, outp)
  | b :: rest, output, outp =>
      if b = 92 ∨ b = 34 then
        escape_scalar_tail rest ((output.set outp 92).set (outp + 1) b) (outp + 2)
      else
        escape_scalar_tail rest (output.set outp b) (outp + 1)

/-- escape_json_neon: process 8 input bytes per iteration while at least 8
remain, then fall back to the byte-at-a-time tail loop. -/
def escape_json_neon_go : List Nat → List Nat → Nat → List Nat × Nat
  | b0 :: b1 :: b2 :: b3 :: b4 :: b5 :: b6 :: b7 :: rest, output, outp =>
      escape_json_neon_go rest
        (escape_8bytes [b0, b1, b2, b3, b4, b5, b6, b7] output outp).1
        (outp + (escape_8bytes [b0, b1, b2, b3, b4, b5, b6, b7] output outp).2)
  | input, output, outp => escape_scalar_tail input output outp

def escape_json_neon (input output : List Nat) : List Nat × Nat :=
  escape_json_neon_go input output 0

theorem flagAnd92 (P : Prop) [Decidable P] :
    ((if P then (255 : Nat) else 0) &&& 92) = if P then 92 else 0 := by
  have h92 : (255 : Nat) &&& 92 = 92 := by decide
  by_cases h : P <;> simp [h, h92]

theorem qsFlag_eq (a : Nat) :
    ((if a = 92 then (255 : Nat) else 0) ||| (if a = 34 then 255 else 0)) =
      if a = 92 ∨ a = 34 then 255 else 0 := by
  by_cases h1 : a = 92 <;> by_cases h2 : a = 34 <;> simp [h1, h2]

theorem and255_eq (a : Nat) (h : a < 256) : 255 &&& a = a := by
  rw [Nat.and_comm]
  have h255 : (255 : Nat) = 2 ^ 8 - 1 := by norm_num
  rw [h255, Nat.and_pow_two_sub_one_eq_mod]
  omega

set_option maxHeartbeats 1000000 in
theorem escapeVectorPair_eq (a0 a1 a2 a3 a4 a5 a6 a7 : Nat)
    (h0 : a0 < 256) (h1 : a1 < 256) (h2 : a2 < 256) (h3 : a3 < 256)
    (h4 : a4 < 256) (h5 : a5 < 256) (h6 : a6 < 256) (h7 : a7 < 256) :
    escapeVectorPair [a0, a1, a2, a3, a4, a5, a6, a7] =
      ([if a0 = 92 ∨ a0 = 34 then 92 else 0, a0,
        if a1 = 92 ∨ a1 = 34 then 92 else 0, a1,
        if a2 = 92 ∨ a2 = 34 then 92 else 0, a2,
        if a3 = 92 ∨ a3 = 34 then 92 else 0, a3,
        if a4 = 92 ∨ a4 = 34 then 92 else 0, a4,
        if a5 = 92 ∨ a5 = 34 then 92 else 0, a5,
        if a6 = 92 ∨ a6 = 34 then 92 else 0, a6,
        if a7 = 92 ∨ a7 = 34 then 92 else 0, a7],
       [if a0 = 92 ∨ a0 = 34 then 255 else 0, 255,
        if a1 = 92 ∨ a1 = 34 then 255 else 0, 255,
        if a2 = 92 ∨ a2 = 34 then 255 else 0, 255,
        if a3 = 92 ∨ a3 = 34 then 255 else 0, 255,
        if a4 = 92 ∨ a4 = 34 then 255 else 0, 255,
        if a5 = 92 ∨ a5 = 34 then 255 else 0, 255,
        if a6 = 92 ∨ a6 = 34 then 255 else 0, 255,
        if a7 = 92 ∨ a7 = 34 then 255 else 0, 255]) := by
  simp [escapeVectorPair, vmovl_u8, vdup_n_u8, vdupq_n_u8, vcombine_u8,
    vceqq_u8, vorrq_u8, vbslq_u8, vextq_u8, ODD_POSITIONS, List.replicate,
    flagAnd92, qsFlag_eq, and255_eq a0 h0, and255_eq a1 h1, and255_eq a2 h2,
    and255_eq a3 h3, and255_eq a4 h4, and255_eq a5 h5, and255_eq a6 h6,
    and255_eq a7 h7]

theorem getD_take_lt (l : List Nat) (n i d : Nat) (h : i < n) :
    (l.take n).getD i d = l.getD i d := by
  by_cases hl : i < l.length
  · rw [List.getD_eq_getElem _ d (by simp; omega), List.getD_eq_getElem _ d hl]
    exact List.getElem_take _
  · rw [List.getD_eq_default _ d (by simp; omega), List.getD_eq_default _ d (by omega)]

theorem row16_row8_getD (m i : Nat) (h : i < 8) :
    (shuffle_table_row 16 m).getD i 0 = (shuffle_table_row 8 m).getD i 0 := by
  have hkl : (keptLanes m).length ≤ 8 := keptLanes_le_length m
  by_cases hik : i < (keptLanes m).length
  · rw [shuffle_table_row, shuffle_table_row, List.getD_append _ _ _ _ hik,
      List.getD_append _ _ _ _ hik]
  · rw [shuffle_table_row, shuffle_table_row,
      List.getD_append_right _ _ _ _ (by omega), List.getD_append_right _ _ _ _ (by omega)]
    rw [List.getD_eq_getElem _ 0 (by simp; omega), List.getD_eq_getElem _ 0 (by simp; omega)]
    simp

theorem vtbl1_row16_take8 (v : List Nat) (m : Nat) :
    vtbl1_u8 v ((COMPRESS_TABLE m).take 8) = vtbl1_u8 v (shuffle_table_row 8 m) := by
  unfold vtbl1_u8 COMPRESS_TABLE
  apply List.map_congr_left
  intro i hi
  have h8 : i < 8 := List.mem_range.mp hi
  rw [getD_take_lt _ _ _ _ h8, row16_row8_getD m i h8]

set_option maxHeartbeats 1000000 in
theorem escape_half_compress (w x y z : Nat) :
    (vtbl1_u8
          [if w = 92 ∨ w = 34 then 92 else 0, w,
           if x = 92 ∨ x = 34 then 92 else 0, x,
           if y = 92 ∨ y = 34 then 92 else 0, y,
           if z = 92 ∨ z = 34 then 92 else 0, z]
          ((COMPRESS_TABLE (movemask_u8x8
              [if w = 92 ∨ w = 34 then 255 else 0, 255,
               if x = 92 ∨ x = 34 then 255 else 0, 255,
               if y = 92 ∨ y = 34 then 255 else 0, 255,
               if z = 92 ∨ z = 34 then 255 else 0, 255])).take 8)).take
        (count_ones (movemask_u8x8
          [if w = 92 ∨ w = 34 then 255 else 0, 255,
           if x = 92 ∨ x = 34 then 255 else 0, 255,
           if y = 92 ∨ y = 34 then 255 else 0, 255,
           if z = 92 ∨ z = 34 then 255 else 0, 255])) = escapeBytes [w, x, y, z] ∧
      count_ones (movemask_u8x8
          [if w = 92 ∨ w = 34 then 255 else 0, 255,
           if x = 92 ∨ x = 34 then 255 else 0, 255,
           if y = 92 ∨ y = 34 then 255 else 0, 255,
           if z = 92 ∨ z = 34 then 255 else 0, 255]) =
        (escapeBytes [w, x, y, z]).length := by
  set esc : List Nat :=
    [if w = 92 ∨ w = 34 then 92 else 0, w,
     if x = 92 ∨ x = 34 then 92 else 0, x,
     if y = 92 ∨ y = 34 then 92 else 0, y,
     if z = 92 ∨ z = 34 then 92 else 0, z] with hesc
  set flags : List Nat :=
    [if w = 92 ∨ w = 34 then 255 else 0, 255,
     if x = 92 ∨ x = 34 then 255 else 0, 255,
     if y = 92 ∨ y = 34 then 255 else 0, 255,
     if z = 92 ∨ z = 34 then 255 else 0, 255] with hflags
  obtain ⟨ct, cc⟩ := compress_take esc flags (by rw [hesc]; rfl) (by rw [hflags]; rfl)
    8 le_rfl
  have hsel : maskSelect esc flags = escapeBytes [w, x, y, z] := by
    rw [hesc, hflags]
    by_cases hw : w = 92 ∨ w = 34 <;> by_cases hx : x = 92 ∨ x = 34 <;>
      by_cases hy : y = 92 ∨ y = 34 <;> by_cases hz : z = 92 ∨ z = 34 <;>
      simp [maskSelect, escapeBytes, hw, hx, hy, hz]
  rw [vtbl1_row16_take8]
  rw [hsel] at ct cc
  exact ⟨ct, cc⟩

theorem escapeBytes_append (l1 l2 : List Nat) :
    escapeBytes (l1 ++ l2) = escapeBytes l1 ++ escapeBytes l2 := by
  induction l1 with
  | nil => simp [escapeBytes]
  | cons b rest ih =>
    by_cases hb : b = 92 ∨ b = 34 <;> simp [escapeBytes, hb, ih]

theorem escapeBytes_le (l : List Nat) : (escapeBytes l).length ≤ 2 * l.length := by
  rw [length_escapeBytes]
  have := List.countP_le_length (p := fun b => decide (b = 92 ∨ b = 34)) (l := l)
  omega

set_option maxHeartbeats 1000000 in
theorem escape_8bytes_spec (b0 b1 b2 b3 b4 b5 b6 b7 : Nat)
    (h0 : b0 < 256) (h1 : b1 < 256) (h2 : b2 < 256) (h3 : b3 < 256)
    (h4 : b4 < 256) (h5 : b5 < 256) (h6 : b6 < 256) (h7 : b7 < 256)
    (output : List Nat) (outp : Nat) (hcap : outp + 16 ≤ output.length) :
    (escape_8bytes [b0, b1, b2, b3, b4, b5, b6, b7] output outp).2 =
        (escapeBytes [b0, b1, b2, b3, b4, b5, b6, b7]).length ∧
      (escape_8bytes [b0, b1, b2, b3, b4, b5, b6, b7] output outp).1.take
          (outp + (escapeBytes [b0, b1, b2, b3, b4, b5, b6, b7]).length) =
        output.take outp ++ escapeBytes [b0, b1, b2, b3, b4, b5, b6, b7] ∧
      (escape_8bytes [b0, b1, b2, b3, b4, b5, b6, b7] output outp).1.length =
        output.length := by
  obtain ⟨ctl, ccl⟩ := escape_half_compress b0 b1 b2 b3
  obtain ⟨cth, cch⟩ := escape_half_compress b4 b5 b6 b7
  have hsplit : escapeBytes [b0, b1, b2, b3, b4, b5, b6, b7] =
      escapeBytes [b0, b1, b2, b3] ++ escapeBytes [b4, b5, b6, b7] := by
    have : ([b0, b1, b2, b3, b4, b5, b6, b7] : List Nat) =
        [b0, b1, b2, b3] ++ [b4, b5, b6, b7] := rfl
    rw [this, escapeBytes_append]
  have hkl8 : (escapeBytes [b0, b1, b2, b3]).length ≤ 8 := by
    have := escapeBytes_le [b0, b1, b2, b3]
    simpa using this
  have hkh8 : (escapeBytes [b4, b5, b6, b7]).length ≤ 8 := by
    have := escapeBytes_le [b4, b5, b6, b7]
    simpa using this
  simp only [escape_8bytes,
    escapeVectorPair_eq b0 b1 b2 b3 b4 b5 b6 b7 h0 h1 h2 h3 h4 h5 h6 h7,
    vget_low_u8, vget_high_u8]
  simp only [List.take_succ_cons, List.take_zero, List.drop_succ_cons, List.drop_zero]
  rw [ccl, cch]
  set esclo : List Nat :=
    [if b0 = 92 ∨ b0 = 34 then 92 else 0, b0,
     if b1 = 92 ∨ b1 = 34 then 92 else 0, b1,
     if b2 = 92 ∨ b2 = 34 then 92 else 0, b2,
     if b3 = 92 ∨ b3 = 34 then 92 else 0, b3] with hesclo
  set eschi : List Nat :=
    [if b4 = 92 ∨ b4 = 34 then 92 else 0, b4,
     if b5 = 92 ∨ b5 = 34 then 92 else 0, b5,
     if b6 = 92 ∨ b6 = 34 then 92 else 0, b6,
     if b7 = 92 ∨ b7 = 34 then 92 else 0, b7] with heschi
  set mlo := movemask_u8x8
    [if b0 = 92 ∨ b0 = 34 then 255 else 0, 255,
     if b1 = 92 ∨ b1 = 34 then 255 else 0, 255,
     if b2 = 92 ∨ b2 = 34 then 255 else 0, 255,
     if b3 = 92 ∨ b3 = 34 then 255 else 0, 255] with hmlo
  set mhi := movemask_u8x8
    [if b4 = 92 ∨ b4 = 34 then 255 else 0, 255,
     if b5 = 92 ∨ b5 = 34 then 255 else 0, 255,
     if b6 = 92 ∨ b6 = 34 then 255 else 0, 255,
     if b7 = 92 ∨ b7 = 34 then 255 else 0, 255] with hmhi
  set Elo := escapeBytes [b0, b1, b2, b3] with hElo
  set Ehi := escapeBytes [b4, b5, b6, b7] with hEhi
  rw [ccl] at ctl
  rw [cch] at cth
  set plo := vtbl1_u8 esclo ((COMPRESS_TABLE mlo).take 8) with hplo
  set phi := vtbl1_u8 eschi ((COMPRESS_TABLE mhi).take 8) with hphi
  have hplo_len : plo.length = 8 := length_vtbl1 _ _
  have hphi_len : phi.length = 8 := length_vtbl1 _ _
  set out1 := storeBytes output outp plo with hout1
  set out2 := storeBytes out1 (outp + Elo.length) phi with hout2
  have hout1_len : out1.length = output.length := length_storeBytes _ _ _
  have hout2_len : out2.length = output.length := by
    rw [hout2, length_storeBytes, hout1_len]
  have h1full : out1.take (outp + 8) = output.take outp ++ plo := by
    have := take_storeBytes_full plo output outp (by rw [hplo_len]; omega)
    rwa [hplo_len] at this
  have h1 : out1.take (outp + Elo.length) = output.take outp ++ Elo := by
    have e : outp + Elo.length = min (outp + Elo.length) (outp + 8) := by omega
    rw [e, ← List.take_take, h1full,
      take_append_left_of_eq _ _ outp Elo.length (by simp; omega), ctl]
  have h2keep : out2.take (outp + Elo.length) = out1.take (outp + Elo.length) :=
    take_storeBytes_of_le phi out1 (outp + Elo.length) (outp + Elo.length) le_rfl
  have h2full : out2.take (outp + Elo.length + 8) =
      out1.take (outp + Elo.length) ++ phi := by
    have := take_storeBytes_full phi out1 (outp + Elo.length)
      (by rw [hphi_len, hout1_len]; omega)
    rwa [hphi_len] at this
  have h2 : out2.take (outp + Elo.length + Ehi.length) =
      output.take outp ++ Elo ++ Ehi := by
    have e : outp + Elo.length + Ehi.length =
        min (outp + Elo.length + Ehi.length) (outp + Elo.length + 8) := by omega
    rw [e, ← List.take_take, h2full, h1,
      take_append_left_of_eq _ _ (outp + Elo.length) Ehi.length (by simp; omega), cth]
  refine ⟨?_, ?_, ?_⟩
  · rw [hsplit]
    simp
  · rw [hsplit]
    have harith : outp + (Elo ++ Ehi).length = outp + Elo.length + Ehi.length := by
      simp
      omega
    rw [harith, h2, List.append_assoc]
  · exact hout2_len

theorem escape_json_neon_go_short (input : List Nat) (h : input.length < 8)
    (output : List Nat) (outp : Nat) :
    escape_json_neon_go input output outp = escape_scalar_tail input output outp := by
  rcases input with _ | ⟨b0, _ | ⟨b1, _ | ⟨b2, _ | ⟨b3, _ | ⟨b4, _ | ⟨b5, _ |
    ⟨b6, _ | ⟨b7, rest⟩⟩⟩⟩⟩⟩⟩⟩
  · rfl
  · rfl
  · rfl
  · rfl
  · rfl
  · rfl
  · rfl
  · rfl
  · simp at h
    omega

theorem escape_scalar_tail_spec (input : List Nat) :
    ∀ (output : List Nat) (outp : Nat),
      outp + 2 * input.length ≤ output.length →
      (escape_scalar_tail input output outp).2 = outp + (escapeBytes input).length ∧
        (escape_scalar_tail input output outp).1.take
            (outp + (escapeBytes input).length) =
          output.take outp ++ escapeBytes input ∧
        (escape_scalar_tail input output outp).1.length = output.length := by
  induction input with
  | nil =>
    intro output outp hcap
    refine ⟨by simp [escape_scalar_tail, escapeBytes], ?_, rfl⟩
    simp [escape_scalar_tail, escapeBytes]
  | cons b rest ih =>
    intro output outp hcap
    simp only [List.length_cons] at hcap
    by_cases hb : b = 92 ∨ b = 34
    · have h1 : outp < output.length := by omega
      have h2' : outp + 1 < (output.set outp 92).length := by simp; omega
      have hesc : escapeBytes (b :: rest) = 92 :: b :: escapeBytes rest := by
        rw [escapeBytes, if_pos hb]
      set output2 := (output.set outp 92).set (outp + 1) b with ho2
      obtain ⟨g1, g2, g3⟩ := ih output2 (outp + 2) (by simp [ho2]; omega)
      have htk : output2.take (outp + 2) = output.take outp ++ [92, b] := by
        have e1 : (output.set outp 92).take (outp + 1) =
            output.take outp ++ [92] := set_take_succ output outp 92 h1
        have e2 : output2.take (outp + 1 + 1) =
            (output.set outp 92).take (outp + 1) ++ [b] :=
          set_take_succ (output.set outp 92) (outp + 1) b h2'
        have harith : outp + 2 = outp + 1 + 1 := by omega
        rw [harith, e2, e1, List.append_assoc]
        rfl
      rw [escape_scalar_tail, if_pos hb]
      refine ⟨?_, ?_, ?_⟩
      · rw [g1, hesc]
        simp
        omega
      · rw [hesc]
        have harith : outp + (92 :: b :: escapeBytes rest).length =
            outp + 2 + (escapeBytes rest).length := by simp; omega
        rw [harith, g2, htk]
        simp
      · rw [g3, ho2]
        simp
    · have h1 : outp < output.length := by omega
      have hesc : escapeBytes (b :: rest) = b :: escapeBytes rest := by
        rw [escapeBytes, if_neg hb]
      set output2 := output.set outp b with ho2
      obtain ⟨g1, g2, g3⟩ := ih output2 (outp + 1) (by simp [ho2]; omega)
      have htk : output2.take (outp + 1) = output.take outp ++ [b] :=
        set_take_succ output outp b h1
      rw [escape_scalar_tail, if_neg hb]
      refine ⟨?_, ?_, ?_⟩
      · rw [g1, hesc]
        simp
        omega
      · rw [hesc]
        have harith : outp + (b :: escapeBytes rest).length =
            outp + 1 + (escapeBytes rest).length := by simp; omega
        rw [harith, g2, htk]
        simp
      · rw [g3, ho2]
        simp

theorem escape_json_neon_go_spec :
    ∀ (n : Nat) (input output : List Nat) (outp : Nat), input.length = n →
      (∀ b ∈ input, b < 256) → outp + 2 * input.length ≤ output.length →
      (escape_json_neon_go input output outp).2 =
          outp + (escapeBytes input).length ∧
        (escape_json_neon_go input output outp).1.take
            (outp + (escapeBytes input).length) =
          output.take outp ++ escapeBytes input ∧
        (escape_json_neon_go input output outp).1.length = output.length := by
  intro n
  induction n using Nat.strong_induction_on with
  | _ n ih =>
    intro input output outp hn hbytes hcap
    by_cases hlen : input.length < 8
    · rw [escape_json_neon_go_short input hlen]
      exact escape_scalar_tail_spec input output outp hcap
    · rcases input with _ | ⟨b0, _ | ⟨b1, _ | ⟨b2, _ | ⟨b3, _ | ⟨b4, _ | ⟨b5, _ |
        ⟨b6, _ | ⟨b7, rest⟩⟩⟩⟩⟩⟩⟩⟩ <;>
        try (simp only [List.length_nil, List.length_cons] at hlen; omega)
      have hb0 : b0 < 256 := hbytes b0 (by simp)
      have hb1 : b1 < 256 := hbytes b1 (by simp)
      have hb2 : b2 < 256 := hbytes b2 (by simp)
      have hb3 : b3 < 256 := hbytes b3 (by simp)
      have hb4 : b4 < 256 := hbytes b4 (by simp)
      have hb5 : b5 < 256 := hbytes b5 (by simp)
      have hb6 : b6 < 256 := hbytes b6 (by simp)
      have hb7 : b7 < 256 := hbytes b7 (by simp)
      have hlen' : (b0 :: b1 :: b2 :: b3 :: b4 :: b5 :: b6 :: b7 :: rest).length =
          rest.length + 8 := by simp
      have hcap16 : outp + 16 ≤ output.length := by
        rw [hlen'] at hcap
        omega
      obtain ⟨s1, s2, s3⟩ := escape_8bytes_spec b0 b1 b2 b3 b4 b5 b6 b7
        hb0 hb1 hb2 hb3 hb4 hb5 hb6 hb7 output outp hcap16
      set E8 := escapeBytes [b0, b1, b2, b3, b4, b5, b6, b7] with hE8
      have hE8le : E8.length ≤ 16 := by
        have := escapeBytes_le [b0, b1, b2, b3, b4, b5, b6, b7]
        simpa using this
      set out8 := (escape_8bytes [b0, b1, b2, b3, b4, b5, b6, b7] output outp).1
        with hout8
      have hcap' : (outp + E8.length) + 2 * rest.length ≤ out8.length := by
        rw [hlen'] at hcap
        rw [s3]
        omega
      obtain ⟨e1, e2, e3⟩ := ih rest.length (by rw [hlen'] at hn; omega) rest out8
        (outp + E8.length) rfl (fun b hb => hbytes b (by simp [hb])) hcap'
      have hsplit : escapeBytes (b0 :: b1 :: b2 :: b3 :: b4 :: b5 :: b6 :: b7 :: rest) =
          E8 ++ escapeBytes rest := by
        rw [hE8]
        have hshape : (b0 :: b1 :: b2 :: b3 :: b4 :: b5 :: b6 :: b7 :: rest) =
            [b0, b1, b2, b3, b4, b5, b6, b7] ++ rest := rfl
        rw [hshape, escapeBytes_append]
      have hstep : escape_json_neon_go
            (b0 :: b1 :: b2 :: b3 :: b4 :: b5 :: b6 :: b7 :: rest) output outp =
          escape_json_neon_go rest out8
            (outp + (escape_8bytes [b0, b1, b2, b3, b4, b5, b6, b7] output outp).2) := by
        rw [escape_json_neon_go]
      rw [hstep, s1]
      refine ⟨?_, ?_, ?_⟩
      · rw [e1, hsplit]
        simp
        omega
      · rw [hsplit]
        have harith : outp + (E8 ++ escapeBytes rest).length =
            (outp + E8.length) + (escapeBytes rest).length := by simp; omega
        rw [harith, e2, s2, List.append_assoc]
      · rw [e3, s3]

/-- Helper: every byte of escapeBytes is 92 or an input byte. -/
theorem escape_json_neon_spec (input output : List Nat)
    (hbytes : ∀ b ∈ input, b < 256)
    (hcap : 2 * input.length ≤ output.length) :
    (escape_json_neon input output).2 = (escapeBytes input).length ∧
      (escape_json_neon input output).1.take ((escapeBytes input).length) =
        escapeBytes input ∧
      (escape_json_neon input output).1.length = output.length := by
  obtain ⟨e1, e2, e3⟩ := escape_json_neon_go_spec input.length input output 0 rfl
    hbytes (by omega)
  rw [escape_json_neon]
  simp only [Nat.zero_add, List.take_zero, List.nil_append] at e1 e2
  exact ⟨e1, e2, e3⟩

/-- C2: with an output buffer of capacity at least twice the input length,
both escape_json_scalar and escape_json_neon write exactly the escaped
sequence (every 0x22 or 0x5C preceded by an inserted 0x5C, all other bytes
passed through unchanged, in order — `escapeBytes`), and the returned
length is the input length plus the number of quote and backslash bytes. -/
theorem C2_escape_correct (input output : List Nat)
    (hbytes : ∀ b ∈ input, b < 256)
    (hcap : 2 * input.length ≤ output.length) :
    (∃ o : List Nat,
        escape_json_scalar input output = .ok (o, (escapeBytes input).length) ∧
          o.take ((escapeBytes input).length) = escapeBytes input ∧
          o.length = output.length) ∧
      (escape_json_neon input output).2 = (escapeBytes input).length ∧
      (escape_json_neon input output).1.take ((escapeBytes input).length) =
        escapeBytes input ∧
      (escapeBytes input).length =
        input.length + input.countP (fun b => decide (b = 92 ∨ b = 34)) := by
  obtain ⟨o, g1, g2, g3⟩ := escape_json_scalar_go_spec input output 0 (by omega)
  obtain ⟨e1, e2, e3⟩ := escape_json_neon_spec input output hbytes hcap
  simp only [Nat.zero_add, List.take_zero, List.nil_append] at g1 g2
  exact ⟨⟨o, g1, g2, g3⟩, e1, e2, length_escapeBytes input⟩

theorem C2_escape_correct_witness :
    ∃ o : List Nat,
      escape_json_scalar [34] [0, 0] = .ok (o, (escapeBytes [34]).length) ∧
        o.take ((escapeBytes [34]).length) = escapeBytes [34] ∧
        o.length = ([0, 0] : List Nat).length :=
  (C2_escape_correct [34] [0, 0] (by decide) (by decide)).1

/-- Modelled from the spec: the inverse pass of §8's round-trip law, which
is not part of the repository's code — remove every escape-prefix byte
(0x5C) that immediately precedes a quote or escape-prefix byte; the
protected byte is emitted and scanning resumes after it. -/
def unescape : List Nat → List Nat
  | [] => []
  | [b] => [b]
  | b :: c :: rest =>
      if b = 92 ∧ (c = 92 ∨ c = 34) then c :: unescape rest
      else b :: unescape (c :: rest)

theorem unescape_cons_ne (b : Nat) (hb : b ≠ 92) (xs : List Nat) :
    unescape (b :: xs) = b :: unescape xs := by
  cases xs with
  | nil => rfl
  | cons c xs' => rw [unescape, if_neg (by tauto)]

theorem unescape_escapeBytes (l : List Nat) : unescape (escapeBytes l) = l := by
  induction l with
  | nil => rfl
  | cons b rest ih =>
    by_cases hb : b = 92 ∨ b = 34
    · rw [escapeBytes, if_pos hb]
      rw [unescape, if_pos ⟨rfl, hb⟩, ih]
    · have hb92 : b ≠ 92 := fun h => hb (Or.inl h)
      rw [escapeBytes, if_neg hb, unescape_cons_ne b hb92, ih]

/-- C9: applying the spec's remove-escape pass to the output of the escape
transform recovers the input exactly. -/
theorem C9_escape_roundtrip (input output : List Nat)
    (hcap : 2 * input.length ≤ output.length) :
    ∃ o : List Nat,
      escape_json_scalar input output = .ok (o, (escapeBytes input).length) ∧
        unescape (o.take ((escapeBytes input).length)) = input := by
  obtain ⟨o, g1, g2, g3⟩ := escape_json_scalar_go_spec input output 0 (by omega)
  simp only [Nat.zero_add, List.take_zero, List.nil_append] at g1 g2
  exact ⟨o, g1, by rw [g2, unescape_escapeBytes]⟩

theorem C9_escape_roundtrip_witness :
    ∃ o : List Nat,
      escape_json_scalar [92, 65] [0, 0, 0, 0] =
          .ok (o, (escapeBytes [92, 65]).length) ∧
        unescape (o.take ((escapeBytes [92, 65]).length)) = [92, 65] :=
  C9_escape_roundtrip [92, 65] [0, 0, 0, 0] (by decide)

/-- C6 (code bug): the escape transform performs no capacity check and no
BufferTooSmall failure exists; with input [0x22, 0x22] and an output
buffer of capacity 1, escape_json_scalar writes the escape byte 0x5C at
index 0 and then panics on the second write — the output buffer has been
partially written (it is [92], no longer [0]) instead of being left
untouched by a checked failure. -/
theorem C6_escape_unchecked_partial_write :
    escape_json_scalar [34, 34] [0] = .error [92] ∧ ([92] : List Nat) ≠ [0] := by
  constructor
  · rfl
  · decide

/-! ### SWAR existence scan (json_escape_SWAR.rs) -/

def needs_json_escape_scalar (byte : Nat) : Bool :=
  decide (byte < 32) || decide (byte = 34) || decide (byte = 92)

def has_json_escapable_byte_scalar (buffer : List Nat) : Bool :=
  buffer.any needs_json_escape_scalar

/-- u64 wrapping subtraction. -/
def wsub64 (x y : Nat) : Nat :=
  (x + 18446744073709551616 - y) % 18446744073709551616

/-- has_json_escapable_byte_swar: the word-parallel test on one u64 of 8
packed bytes (`!x` on u64 is modelled as xor with all ones). -/
def has_json_escapable_byte_swar (x : Nat) : Bool :=
  let is_ascii := 0x8080808080808080 &&& (0xFFFFFFFFFFFFFFFF ^^^ x)
  let lt32 := wsub64 x 0x2020202020202020
  let sub34 := x ^^^ 0x2222222222222222
  let eq34 := wsub64 sub34 0x0101010101010101
  let sub92 := x ^^^ 0x5C5C5C5C5C5C5C5C
  let eq92 := wsub64 sub92 0x0101010101010101
  decide (((lt32 ||| eq34 ||| eq92) &&& is_ascii) ≠ 0)

/-- u64::from_le_bytes: pack bytes little-endian, base 256. -/
def packLE : List Nat → Nat
  | [] => 0
  | b :: bs => b + 256 * packLE bs

/-- has_json_escapable_byte: test 8 bytes at a time through the SWAR word
(early exit on a hit), and scan the leftovers byte by byte. -/
def has_json_escapable_byte : List Nat → Bool
  | b0 :: b1 :: b2 :: b3 :: b4 :: b5 :: b6 :: b7 :: rest =>
      if has_json_escapable_byte_swar (packLE [b0, b1, b2, b3, b4, b5, b6, b7]) then
        true
      else has_json_escapable_byte rest
  | leftover => leftover.any needs_json_escape_scalar

/-- Byte-wise ripple-borrow subtraction, least-significant digit first. -/
def subB : List Nat → List Nat → Nat → List Nat
  | x :: xs, y :: ys, br =>
      (x + 256 - (y + br)) % 256 :: subB xs ys (if x < y + br then 1 else 0)
  | _, _, _ => []

theorem packLE_lt (bs : List Nat) (h : ∀ b ∈ bs, b < 256) :
    packLE bs < 256 ^ bs.length := by
  induction bs with
  | nil => simp [packLE]
  | cons b bs ih =>
    have hb : b < 256 := h b (by simp)
    have hP : packLE bs < 256 ^ bs.length := ih (fun c hc => h c (by simp [hc]))
    rw [packLE, List.length_cons, pow_succ]
    have : 256 * (packLE bs + 1) ≤ 256 * 256 ^ bs.length :=
      Nat.mul_le_mul_left 256 (by omega)
    omega

theorem packLE_eq_zero_iff (bs : List Nat) :
    packLE bs = 0 ↔ ∀ b ∈ bs, b = 0 := by
  induction bs with
  | nil => simp [packLE]
  | cons b bs ih =>
    rw [packLE]
    constructor
    · intro h
      have hb : b = 0 ∧ packLE bs = 0 := by omega
      intro c hc
      rcases List.mem_cons.mp hc with rfl | hc
      · omega
      · exact ih.mp hb.2 c hc
    · intro h
      have hb : b = 0 := h b (by simp)
      have hr : packLE bs = 0 := ih.mpr (fun c hc => h c (by simp [hc]))
      omega

theorem land_div_two_pow (x y k : Nat) :
    (x &&& y) / 2 ^ k = (x / 2 ^ k) &&& (y / 2 ^ k) := by
  apply Nat.eq_of_testBit_eq
  intro i
  rw [← Nat.shiftRight_eq_div_pow, ← Nat.shiftRight_eq_div_pow,
    ← Nat.shiftRight_eq_div_pow]
  simp [Nat.testBit_shiftRight, Nat.testBit_and]

theorem lor_div_two_pow (x y k : Nat) :
    (x ||| y) / 2 ^ k = (x / 2 ^ k) ||| (y / 2 ^ k) := by
  apply Nat.eq_of_testBit_eq
  intro i
  rw [← Nat.shiftRight_eq_div_pow, ← Nat.shiftRight_eq_div_pow,
    ← Nat.shiftRight_eq_div_pow]
  simp [Nat.testBit_shiftRight, Nat.testBit_or]

theorem xor_div_two_pow (x y k : Nat) :
    (x ^^^ y) / 2 ^ k = (x / 2 ^ k) ^^^ (y / 2 ^ k) := by
  apply Nat.eq_of_testBit_eq
  intro i
  rw [← Nat.shiftRight_eq_div_pow, ← Nat.shiftRight_eq_div_pow,
    ← Nat.shiftRight_eq_div_pow]
  simp [Nat.testBit_shiftRight, Nat.testBit_xor]

theorem land_mod_two_pow (x y k : Nat) :
    (x &&& y) % 2 ^ k = (x % 2 ^ k) &&& (y % 2 ^ k) := by
  apply Nat.eq_of_testBit_eq
  intro i
  simp only [Nat.testBit_mod_two_pow, Nat.testBit_and]
  cases decide (i < k) <;> simp

theorem lor_mod_two_pow (x y k : Nat) :
    (x ||| y) % 2 ^ k = (x % 2 ^ k) ||| (y % 2 ^ k) := by
  apply Nat.eq_of_testBit_eq
  intro i
  simp only [Nat.testBit_mod_two_pow, Nat.testBit_or]
  cases decide (i < k) <;> simp

theorem xor_mod_two_pow (x y k : Nat) :
    (x ^^^ y) % 2 ^ k = (x % 2 ^ k) ^^^ (y % 2 ^ k) := by
  apply Nat.eq_of_testBit_eq
  intro i
  simp only [Nat.testBit_mod_two_pow, Nat.testBit_xor]
  cases decide (i < k) <;> simp

theorem digit_split_op (op : Nat → Nat → Nat)
    (hmod : ∀ u v, op u v % 2 ^ 8 = op (u % 2 ^ 8) (v % 2 ^ 8))
    (hdiv : ∀ u v, op u v / 2 ^ 8 = op (u / 2 ^ 8) (v / 2 ^ 8))
    (a b X Y : Nat) (ha : a < 256) (hb : b < 256) (hab : op a b < 256) :
    op (a + 256 * X) (b + 256 * Y) = op a b + 256 * op X Y := by
  have h256 : (256 : Nat) = 2 ^ 8 := by norm_num
  have hm : op (a + 256 * X) (b + 256 * Y) % 2 ^ 8 = op a b := by
    rw [hmod]
    have e1 : (a + 256 * X) % 2 ^ 8 = a := by rw [← h256]; omega
    have e2 : (b + 256 * Y) % 2 ^ 8 = b := by rw [← h256]; omega
    rw [e1, e2]
  have hd : op (a + 256 * X) (b + 256 * Y) / 2 ^ 8 = op X Y := by
    rw [hdiv]
    have e1 : (a + 256 * X) / 2 ^ 8 = X := by rw [← h256]; omega
    have e2 : (b + 256 * Y) / 2 ^ 8 = Y := by rw [← h256]; omega
    rw [e1, e2]
  have := Nat.mod_add_div (op (a + 256 * X) (b + 256 * Y)) (2 ^ 8)
  rw [hm, hd] at this
  rw [← this, ← h256]

theorem packLE_land (xs ys : List Nat) (hlen : xs.length = ys.length)
    (hx : ∀ b ∈ xs, b < 256) (hy : ∀ b ∈ ys, b < 256) :
    packLE xs &&& packLE ys = packLE (List.zipWith (· &&& ·) xs ys) := by
  induction xs generalizing ys with
  | nil =>
    cases ys with
    | nil => simp [packLE]
    | cons b ys => simp at hlen
  | cons a xs ih =>
    cases ys with
    | nil => simp at hlen
    | cons b ys =>
      have ha : a < 256 := hx a (by simp)
      have hb : b < 256 := hy b (by simp)
      have hab : a &&& b < 256 := by
        have hb8 : b < 2 ^ 8 := by norm_num; omega
        have := Nat.and_lt_two_pow a hb8
        omega
      rw [List.zipWith_cons_cons, packLE, packLE, packLE,
        digit_split_op (· &&& ·) (fun u v => land_mod_two_pow u v 8)
          (fun u v => land_div_two_pow u v 8) a b _ _ ha hb hab,
        ih ys (by simpa using hlen) (fun c hc => hx c (by simp [hc]))
          (fun c hc => hy c (by simp [hc]))]

theorem packLE_lor (xs ys : List Nat) (hlen : xs.length = ys.length)
    (hx : ∀ b ∈ xs, b < 256) (hy : ∀ b ∈ ys, b < 256) :
    packLE xs ||| packLE ys = packLE (List.zipWith (· ||| ·) xs ys) := by
  induction xs generalizing ys with
  | nil =>
    cases ys with
    | nil => simp [packLE]
    | cons b ys => simp at hlen
  | cons a xs ih =>
    cases ys with
    | nil => simp at hlen
    | cons b ys =>
      have ha : a < 256 := hx a (by simp)
      have hb : b < 256 := hy b (by simp)
      have hab : a ||| b < 256 := by
        have : a ||| b < 2 ^ 8 := Nat.or_lt_two_pow (by norm_num; omega) (by norm_num; omega)
        omega
      rw [List.zipWith_cons_cons, packLE, packLE, packLE,
        digit_split_op (· ||| ·) (fun u v => lor_mod_two_pow u v 8)
          (fun u v => lor_div_two_pow u v 8) a b _ _ ha hb hab,
        ih ys (by simpa using hlen) (fun c hc => hx c (by simp [hc]))
          (fun c hc => hy c (by simp [hc]))]

theorem packLE_xor (xs ys : List Nat) (hlen : xs.length = ys.length)
    (hx : ∀ b ∈ xs, b < 256) (hy : ∀ b ∈ ys, b < 256) :
    packLE xs ^^^ packLE ys = packLE (List.zipWith (· ^^^ ·) xs ys) := by
  induction xs generalizing ys with
  | nil =>
    cases ys with
    | nil => simp [packLE]
    | cons b ys => simp at hlen
  | cons a xs ih =>
    cases ys with
    | nil => simp at hlen
    | cons b ys =>
      have ha : a < 256 := hx a (by simp)
      have hb : b < 256 := hy b (by simp)
      have hab : a ^^^ b < 256 := by
        have : a ^^^ b < 2 ^ 8 := Nat.xor_lt_two_pow (by norm_num; omega) (by norm_num; omega)
        omega
      rw [List.zipWith_cons_cons, packLE, packLE, packLE,
        digit_split_op (· ^^^ ·) (fun u v => xor_mod_two_pow u v 8)
          (fun u v => xor_div_two_pow u v 8) a b _ _ ha hb hab,
        ih ys (by simpa using hlen) (fun c hc => hx c (by simp [hc]))
          (fun c hc => hy c (by simp [hc]))]

theorem mod_base_split (u v m : Nat) (hu : u < 256) :
    (u + 256 * v) % 256 ^ (m + 1) = u + 256 * (v % 256 ^ m) := by
  conv_lhs => rw [← Nat.div_add_mod v (256 ^ m)]
  have hre : u + 256 * (256 ^ m * (v / 256 ^ m) + v % 256 ^ m) =
      (u + 256 * (v % 256 ^ m)) + 256 ^ (m + 1) * (v / 256 ^ m) := by
    rw [pow_succ]
    ring
  rw [hre, Nat.add_mul_mod_self_left]
  apply Nat.mod_eq_of_lt
  have hr : v % 256 ^ m < 256 ^ m := Nat.mod_lt v (Nat.pos_pow_of_pos m (by norm_num))
  have h1 : u + 256 * (v % 256 ^ m) + 1 ≤ 256 * (v % 256 ^ m + 1) := by omega
  have h2 : 256 * (v % 256 ^ m + 1) ≤ 256 * 256 ^ m := Nat.mul_le_mul_left 256 (by omega)
  rw [pow_succ]
  omega

theorem packLE_subB (xs : List Nat) :
    ∀ (ys : List Nat) (br : Nat), xs.length = ys.length → br ≤ 1 →
      (∀ b ∈ xs, b < 256) → (∀ b ∈ ys, b < 256) →
      packLE (subB xs ys br) =
        (packLE xs + 256 ^ xs.length - (packLE ys + br)) % 256 ^ xs.length := by
  induction xs with
  | nil =>
    intro ys br hlen hbr hx hy
    cases ys with
    | nil => simp [subB, packLE, Nat.mod_one]
    | cons b ys => simp at hlen
  | cons x xs ih =>
    intro ys br hlen hbr hx hy
    cases ys with
    | nil => simp at hlen
    | cons y ys =>
      have hx0 : x < 256 := hx x (by simp)
      have hy0 : y < 256 := hy y (by simp)
      have hX : packLE xs < 256 ^ xs.length :=
        packLE_lt xs (fun c hc => hx c (by simp [hc]))
      have hY : packLE ys < 256 ^ ys.length :=
        packLE_lt ys (fun c hc => hy c (by simp [hc]))
      have hlen' : xs.length = ys.length := by simpa using hlen
      rw [← hlen'] at hY
      set X := packLE xs with hXd
      set Y := packLE ys with hYd
      by_cases hc : x < y + br
      · have hbr' : (if x < y + br then 1 else 0) = 1 := if_pos hc
        rw [subB, packLE, hbr',
          ih ys 1 hlen' (by omega) (fun c hcm => hx c (by simp [hcm]))
            (fun c hcm => hy c (by simp [hcm]))]
        have hd0 : (x + 256 - (y + br)) % 256 = x + 256 - (y + br) := by omega
        have hsplit : (x + 256 * X) + 256 ^ (xs.length + 1) - ((y + 256 * Y) + br) =
            (x + 256 - (y + br)) + 256 * (X + 256 ^ xs.length - (Y + 1)) := by
          have hp : 256 ^ (xs.length + 1) = 256 * 256 ^ xs.length := by
            rw [pow_succ]
            ring
          omega
        rw [hd0]
        simp only [List.length_cons, packLE]
        rw [hsplit, mod_base_split _ _ xs.length (by omega)]
      · have hbr' : (if x < y + br then 1 else 0) = 0 := if_neg hc
        rw [subB, packLE, hbr',
          ih ys 0 hlen' (by omega) (fun c hcm => hx c (by simp [hcm]))
            (fun c hcm => hy c (by simp [hcm]))]
        have hd0 : (x + 256 - (y + br)) % 256 = x - (y + br) := by omega
        have hsplit : (x + 256 * X) + 256 ^ (xs.length + 1) - ((y + 256 * Y) + br) =
            (x - (y + br)) + 256 * (X + 256 ^ xs.length - (Y + 0)) := by
          have hp : 256 ^ (xs.length + 1) = 256 * 256 ^ xs.length := by
            rw [pow_succ]
            ring
          omega
        rw [hd0]
        simp only [List.length_cons, packLE]
        rw [hsplit, mod_base_split _ _ xs.length (by omega)]

/-- The per-byte digits of the combined SWAR test word, carrying the three
independent ripple borrows. -/
def swarDigitList : List Nat → Nat → Nat → Nat → List Nat
  | [], _, _, _ => []
  | x :: xs, b32, b34, b92 =>
      ((((x + 256 - (32 + b32)) % 256 |||
            ((x ^^^ 34) + 256 - (1 + b34)) % 256) |||
          ((x ^^^ 92) + 256 - (1 + b92)) % 256) &&&
        (128 &&& (255 ^^^ x))) ::
      swarDigitList xs (if x < 32 + b32 then 1 else 0)
        (if x ^^^ 34 < 1 + b34 then 1 else 0) (if x ^^^ 92 < 1 + b92 then 1 else 0)

theorem swarDigitList_eq (xs : List Nat) :
    ∀ (b32 b34 b92 : Nat),
      List.zipWith (· &&& ·)
          (List.zipWith (· ||| ·)
            (List.zipWith (· ||| ·) (subB xs (List.replicate xs.length 32) b32)
              (subB (List.zipWith (· ^^^ ·) xs (List.replicate xs.length 34))
                (List.replicate xs.length 1) b34))
            (subB (List.zipWith (· ^^^ ·) xs (List.replicate xs.length 92))
              (List.replicate xs.length 1) b92))
          (List.zipWith (· &&& ·) (List.replicate xs.length 128)
            (List.zipWith (· ^^^ ·) (List.replicate xs.length 255) xs)) =
        swarDigitList xs b32 b34 b92 := by
  induction xs with
  | nil => intro b32 b34 b92; rfl
  | cons x xs ih =>
    intro b32 b34 b92
    simp only [List.length_cons, List.replicate_succ, List.zipWith_cons_cons, subB,
      swarDigitList]
    rw [ih]

theorem testBit7_of_ge (v : Nat) (h1 : 128 ≤ v) (h2 : v < 256) :
    v.testBit 7 = true := by
  rw [Nat.testBit_to_div_mod]
  have h7 : (2 : Nat) ^ 7 = 128 := by norm_num
  rw [h7]
  simp only [decide_eq_true_eq]
  omega

theorem testBit7_of_lt (v : Nat) (h : v < 128) : v.testBit 7 = false :=
  Nat.testBit_lt_two_pow (by norm_num; omega)

theorem land128_eq (v : Nat) : 128 &&& v = if v.testBit 7 then 128 else 0 := by
  rw [Nat.and_comm]
  have h128 : (128 : Nat) = 2 ^ 7 := by norm_num
  rw [h128, Nat.and_two_pow]
  cases h : v.testBit 7 <;> simp

theorem ascii_digit_eq (x : Nat) (hx : x < 256) :
    128 &&& (255 ^^^ x) = if x < 128 then 128 else 0 := by
  rw [land128_eq]
  have hx7 : (255 ^^^ x).testBit 7 = !(x.testBit 7) := by
    rw [Nat.testBit_xor]
    have h255 : (255 : Nat).testBit 7 = true := by decide
    rw [h255]
    cases x.testBit 7 <;> rfl
  rw [hx7]
  by_cases h : x < 128
  · rw [testBit7_of_lt x h]
    simp [h]
  · rw [testBit7_of_ge x (by omega) hx]
    simp [h]

theorem swarDigitList_all_zero (xs : List Nat) :
    ∀ (hb : ∀ x ∈ xs, x < 256)
      (hnone : ∀ x ∈ xs, needs_json_escape_scalar x = false),
      ∀ d ∈ swarDigitList xs 0 0 0, d = 0 := by
  induction xs with
  | nil => intro _ _ d hd; simp [swarDigitList] at hd
  | cons x xs ih =>
    intro hb hnone d hd
    have hx : x < 256 := hb x (by simp)
    have hxn : needs_json_escape_scalar x = false := hnone x (by simp)
    simp only [needs_json_escape_scalar, Bool.or_eq_false_iff, decide_eq_false_iff_not]
      at hxn
    obtain ⟨⟨hx32, hx34⟩, hx92⟩ := hxn
    have hy34 : x ^^^ 34 ≠ 0 := by
      intro h
      exact hx34 (Nat.xor_eq_zero.mp h)
    have hy92 : x ^^^ 92 ≠ 0 := by
      intro h
      exact hx92 (Nat.xor_eq_zero.mp h)
    have hbr32 : ¬ x < 32 + 0 := by omega
    have hbr34 : ¬ x ^^^ 34 < 1 + 0 := by omega
    have hbr92 : ¬ x ^^^ 92 < 1 + 0 := by omega
    rw [swarDigitList] at hd
    simp only [if_neg hbr32, if_neg hbr34, if_neg hbr92, List.mem_cons] at hd
    rcases hd with rfl | hd
    · simp only [Nat.add_zero]
      by_cases hascii : x < 128
      · have h34lt : x ^^^ 34 < 128 := by
          have h' : x ^^^ 34 < 2 ^ 7 :=
            Nat.xor_lt_two_pow (by norm_num; omega) (by norm_num)
          omega
        have h92lt : x ^^^ 92 < 128 := by
          have h' : x ^^^ 92 < 2 ^ 7 :=
            Nat.xor_lt_two_pow (by norm_num; omega) (by norm_num)
          omega
        have hor1 : (x + 256 - 32) % 256 ||| ((x ^^^ 34) + 256 - 1) % 256 < 2 ^ 7 :=
          Nat.or_lt_two_pow (by norm_num; omega) (by norm_num; omega)
        have hor : ((x + 256 - 32) % 256 ||| ((x ^^^ 34) + 256 - 1) % 256) |||
            ((x ^^^ 92) + 256 - 1) % 256 < 128 := by
          have h' : ((x + 256 - 32) % 256 ||| ((x ^^^ 34) + 256 - 1) % 256) |||
              ((x ^^^ 92) + 256 - 1) % 256 < 2 ^ 7 :=
            Nat.or_lt_two_pow hor1 (by norm_num; omega)
          omega
        rw [ascii_digit_eq x hx, if_pos hascii, Nat.and_comm, land128_eq,
          testBit7_of_lt _ hor]
        rfl
      · rw [ascii_digit_eq x hx, if_neg hascii]
        simp
    · exact ih (fun c hc => hb c (by simp [hc]))
        (fun c hc => hnone c (by simp [hc])) d hd

theorem swarDigitList_exists (xs : List Nat) :
    ∀ (b32 b34 b92 : Nat), b32 ≤ 1 → b34 ≤ 1 → b92 ≤ 1 →
      (∀ x ∈ xs, x < 256) →
      (∃ x ∈ xs, needs_json_escape_scalar x = true) →
      ∃ d ∈ swarDigitList xs b32 b34 b92, d ≠ 0 := by
  induction xs with
  | nil =>
    intro _ _ _ _ _ _ _ hhit
    simp at hhit
  | cons x xs ih =>
    intro b32 b34 b92 h32 h34 h92 hb hhit
    obtain ⟨c, hc, hcp⟩ := hhit
    have hx : x < 256 := hb x (by simp)
    rcases List.mem_cons.mp hc with rfl | hcmem
    · refine ⟨(((c + 256 - (32 + b32)) % 256 |||
          ((c ^^^ 34) + 256 - (1 + b34)) % 256) |||
          ((c ^^^ 92) + 256 - (1 + b92)) % 256) &&& (128 &&& (255 ^^^ c)),
        by rw [swarDigitList]; simp, ?_⟩
      simp only [needs_json_escape_scalar, Bool.or_eq_true, decide_eq_true_eq] at hcp
      have hc128 : c < 128 := by omega
      have hS : ((((c + 256 - (32 + b32)) % 256 |||
          ((c ^^^ 34) + 256 - (1 + b34)) % 256) |||
          ((c ^^^ 92) + 256 - (1 + b92)) % 256)).testBit 7 = true := by
        rcases hcp with (hlt | h34eq) | h92eq
        · have hv : 128 ≤ (c + 256 - (32 + b32)) % 256 ∧
              (c + 256 - (32 + b32)) % 256 < 256 := by omega
          rw [Nat.testBit_or, Nat.testBit_or, testBit7_of_ge _ hv.1 hv.2]
          rfl
        · subst h34eq
          have hxor : (34 : Nat) ^^^ 34 = 0 := by decide
          have hv : 128 ≤ ((34 ^^^ 34 : Nat) + 256 - (1 + b34)) % 256 ∧
              ((34 ^^^ 34 : Nat) + 256 - (1 + b34)) % 256 < 256 := by
            rw [hxor]
            omega
          rw [Nat.testBit_or, Nat.testBit_or, testBit7_of_ge _ hv.1 hv.2]
          simp
        · subst h92eq
          have hxor : (92 : Nat) ^^^ 92 = 0 := by decide
          have hv : 128 ≤ ((92 ^^^ 92 : Nat) + 256 - (1 + b92)) % 256 ∧
              ((92 ^^^ 92 : Nat) + 256 - (1 + b92)) % 256 < 256 := by
            rw [hxor]
            omega
          rw [Nat.testBit_or, testBit7_of_ge _ hv.1 hv.2]
          simp
      rw [ascii_digit_eq c hx, if_pos hc128, Nat.and_comm, land128_eq, hS]
      decide
    · obtain ⟨d, hd, hdne⟩ := ih (if x < 32 + b32 then 1 else 0)
        (if x ^^^ 34 < 1 + b34 then 1 else 0) (if x ^^^ 92 < 1 + b92 then 1 else 0)
        (by split <;> omega) (by split <;> omega) (by split <;> omega)
        (fun e he => hb e (by simp [he])) ⟨c, hcmem, hcp⟩
      exact ⟨d, by rw [swarDigitList]; simp [hd], hdne⟩

theorem subB_length (xs : List Nat) :
    ∀ (ys : List Nat) (br : Nat), xs.length = ys.length →
      (subB xs ys br).length = xs.length := by
  induction xs with
  | nil =>
    intro ys br hlen
    cases ys <;> simp [subB]
  | cons x xs ih =>
    intro ys br hlen
    cases ys with
    | nil => simp at hlen
    | cons y ys => simp [subB, ih ys _ (by simpa using hlen)]

theorem subB_bound (xs : List Nat) :
    ∀ (ys : List Nat) (br : Nat), ∀ d ∈ subB xs ys br, d < 256 := by
  induction xs with
  | nil =>
    intro ys br d hd
    cases ys <;> simp [subB] at hd
  | cons x xs ih =>
    intro ys br d hd
    cases ys with
    | nil => simp [subB] at hd
    | cons y ys =>
      rw [subB] at hd
      rcases List.mem_cons.mp hd with rfl | hd
      · exact Nat.mod_lt _ (by norm_num)
      · exact ih ys _ d hd

theorem zipWith_bound (f : Nat → Nat → Nat)
    (hf : ∀ a b, a < 256 → b < 256 → f a b < 256) :
    ∀ (xs ys : List Nat), (∀ b ∈ xs, b < 256) → (∀ b ∈ ys, b < 256) →
      ∀ b ∈ List.zipWith f xs ys, b < 256 := by
  intro xs
  induction xs with
  | nil =>
    intro ys _ _ b hb
    simp at hb
  | cons x xs ih =>
    intro ys hx hy b hb
    cases ys with
    | nil => simp at hb
    | cons y ys =>
      rw [List.zipWith_cons_cons] at hb
      rcases List.mem_cons.mp hb with rfl | hb
      · exact hf x y (hx x (by simp)) (hy y (by simp))
      · exact ih ys (fun c hc => hx c (by simp [hc])) (fun c hc => hy c (by simp [hc]))
          b hb

theorem replicate_bound (c : Nat) (hc : c < 256) (n : Nat) :
    ∀ b ∈ List.replicate n c, b < 256 := by
  intro b hb
  rw [List.eq_of_mem_replicate hb]
  exact hc

theorem xor_byte_bound (a b : Nat) (ha : a < 256) (hb : b < 256) : a ^^^ b < 256 := by
  have h' : a ^^^ b < 2 ^ 8 := Nat.xor_lt_two_pow (by norm_num; omega) (by norm_num; omega)
  omega

theorem lor_byte_bound (a b : Nat) (ha : a < 256) (hb : b < 256) : a ||| b < 256 := by
  have h' : a ||| b < 2 ^ 8 := Nat.or_lt_two_pow (by norm_num; omega) (by norm_num; omega)
  omega

theorem land_byte_bound (a b : Nat) (ha : a < 256) (hb : b < 256) : a &&& b < 256 := by
  have hb8 : b < 2 ^ 8 := by norm_num; omega
  have h' := Nat.and_lt_two_pow a hb8
  omega

set_option maxHeartbeats 1000000 in
theorem swar_correct (chunk : List Nat) (hlen : chunk.length = 8)
    (hbytes : ∀ b ∈ chunk, b < 256) :
    has_json_escapable_byte_swar (packLE chunk) =
      chunk.any needs_json_escape_scalar := by
  have hr255 := replicate_bound 255 (by norm_num) 8
  have hr128 := replicate_bound 128 (by norm_num) 8
  have hr32 := replicate_bound 32 (by norm_num) 8
  have hr34 := replicate_bound 34 (by norm_num) 8
  have hr92 := replicate_bound 92 (by norm_num) 8
  have hr1 := replicate_bound 1 (by norm_num) 8
  have hlenrep : ∀ c : Nat, chunk.length = (List.replicate 8 c).length := by
    intro c
    simp [hlen]
  have h64 : (18446744073709551616 : Nat) = 256 ^ chunk.length := by
    rw [hlen]
    norm_num
  set notD := List.zipWith (· ^^^ ·) (List.replicate 8 255) chunk with hnotD
  have hnotD_bound : ∀ b ∈ notD, b < 256 :=
    zipWith_bound _ xor_byte_bound _ _ hr255 hbytes
  have e_not : 0xFFFFFFFFFFFFFFFF ^^^ packLE chunk = packLE notD := by
    have hc : (0xFFFFFFFFFFFFFFFF : Nat) = packLE (List.replicate 8 255) := by decide
    rw [hc, packLE_xor _ _ (by simp [hlen]) hr255 hbytes]
  set asciiD := List.zipWith (· &&& ·) (List.replicate 8 128) notD with hasciiD
  have hasciiD_bound : ∀ b ∈ asciiD, b < 256 :=
    zipWith_bound _ land_byte_bound _ _ hr128 hnotD_bound
  have hnotD_len : notD.length = 8 := by
    rw [hnotD]
    simp [hlen]
  have e_ascii : 0x8080808080808080 &&& (0xFFFFFFFFFFFFFFFF ^^^ packLE chunk) =
      packLE asciiD := by
    rw [e_not]
    have hc : (0x8080808080808080 : Nat) = packLE (List.replicate 8 128) := by decide
    rw [hc, packLE_land _ _ (by simp [hnotD_len]) hr128 hnotD_bound]
  set d32 := subB chunk (List.replicate 8 32) 0 with hd32
  have hd32_bound : ∀ b ∈ d32, b < 256 := subB_bound _ _ _
  have hd32_len : d32.length = 8 := by
    rw [hd32, subB_length _ _ _ (hlenrep 32), hlen]
  have e_lt32 : wsub64 (packLE chunk) 0x2020202020202020 = packLE d32 := by
    have hc : (0x2020202020202020 : Nat) = packLE (List.replicate 8 32) := by decide
    rw [wsub64, hd32, packLE_subB chunk _ 0 (hlenrep 32) (by omega) hbytes hr32, hc,
      h64, Nat.add_zero]
  set x34 := List.zipWith (· ^^^ ·) chunk (List.replicate 8 34) with hx34
  have hx34_bound : ∀ b ∈ x34, b < 256 :=
    zipWith_bound _ xor_byte_bound _ _ hbytes hr34
  have hx34_len : x34.length = 8 := by
    rw [hx34]
    simp [hlen]
  set d34 := subB x34 (List.replicate 8 1) 0 with hd34
  have hd34_bound : ∀ b ∈ d34, b < 256 := subB_bound _ _ _
  have hd34_len : d34.length = 8 := by
    rw [hd34, subB_length _ _ _ (by simp [hx34_len]), hx34_len]
  have e_eq34 : wsub64 (packLE chunk ^^^ 0x2222222222222222) 0x0101010101010101 =
      packLE d34 := by
    have hc34 : (0x2222222222222222 : Nat) = packLE (List.replicate 8 34) := by decide
    have hc1 : (0x0101010101010101 : Nat) = packLE (List.replicate 8 1) := by decide
    have h64' : (18446744073709551616 : Nat) = 256 ^ x34.length := by
      rw [hx34_len]
      norm_num
    rw [hc34, packLE_xor _ _ (hlenrep 34) hbytes hr34, ← hx34, wsub64, hd34,
      packLE_subB x34 _ 0 (by simp [hx34_len]) (by omega) hx34_bound hr1, hc1,
      h64', Nat.add_zero]
  set x92 := List.zipWith (· ^^^ ·) chunk (List.replicate 8 92) with hx92
  have hx92_bound : ∀ b ∈ x92, b < 256 :=
    zipWith_bound _ xor_byte_bound _ _ hbytes hr92
  have hx92_len : x92.length = 8 := by
    rw [hx92]
    simp [hlen]
  set d92 := subB x92 (List.replicate 8 1) 0 with hd92
  have hd92_bound : ∀ b ∈ d92, b < 256 := subB_bound _ _ _
  have hd92_len : d92.length = 8 := by
    rw [hd92, subB_length _ _ _ (by simp [hx92_len]), hx92_len]
  have e_eq92 : wsub64 (packLE chunk ^^^ 0x5C5C5C5C5C5C5C5C) 0x0101010101010101 =
      packLE d92 := by
    have hc92 : (0x5C5C5C5C5C5C5C5C : Nat) = packLE (List.replicate 8 92) := by decide
    have hc1 : (0x0101010101010101 : Nat) = packLE (List.replicate 8 1) := by decide
    have h64' : (18446744073709551616 : Nat) = 256 ^ x92.length := by
      rw [hx92_len]
      norm_num
    rw [hc92, packLE_xor _ _ (hlenrep 92) hbytes hr92, ← hx92, wsub64, hd92,
      packLE_subB x92 _ 0 (by simp [hx92_len]) (by omega) hx92_bound hr1, hc1,
      h64', Nat.add_zero]
  set orD := List.zipWith (· ||| ·) (List.zipWith (· ||| ·) d32 d34) d92 with horD
  have hor1_bound : ∀ b ∈ List.zipWith (· ||| ·) d32 d34, b < 256 :=
    zipWith_bound _ lor_byte_bound _ _ hd32_bound hd34_bound
  have horD_bound : ∀ b ∈ orD, b < 256 :=
    zipWith_bound _ lor_byte_bound _ _ hor1_bound hd92_bound
  have e_or : packLE d32 ||| packLE d34 ||| packLE d92 = packLE orD := by
    rw [packLE_lor _ _ (by simp [hd32_len, hd34_len]) hd32_bound hd34_bound,
      packLE_lor _ _ (by simp [hd32_len, hd34_len, hd92_len]) hor1_bound hd92_bound]
  set finalD := List.zipWith (· &&& ·) orD asciiD with hfinalD
  have horD_len : orD.length = 8 := by
    rw [horD]
    simp [hd32_len, hd34_len, hd92_len]
  have hasciiD_len : asciiD.length = 8 := by
    rw [hasciiD]
    simp [hnotD_len]
  have e_final : packLE orD &&& packLE asciiD = packLE finalD :=
    packLE_land _ _ (by simp [horD_len, hasciiD_len]) horD_bound hasciiD_bound
  have e_digits : finalD = swarDigitList chunk 0 0 0 := by
    rw [hfinalD, horD, hasciiD, hnotD, hd32, hd34, hd92, hx34, hx92]
    have hrw : ∀ c : Nat, List.replicate 8 c = List.replicate chunk.length c := by
      intro c
      rw [hlen]
    rw [hrw 32, hrw 34, hrw 92, hrw 1, hrw 128, hrw 255]
    exact swarDigitList_eq chunk 0 0 0
  rw [has_json_escapable_byte_swar]
  simp only [e_ascii, e_lt32, e_eq34, e_eq92, e_or, e_final, e_digits]
  cases hany : chunk.any needs_json_escape_scalar
  · have hnone : ∀ x ∈ chunk, needs_json_escape_scalar x = false := by
      intro c hc
      by_contra hne
      have : chunk.any needs_json_escape_scalar = true :=
        List.any_eq_true.mpr ⟨c, hc, by revert hne; cases needs_json_escape_scalar c <;> simp⟩
      rw [hany] at this
      exact Bool.false_ne_true this
    have hz : packLE (swarDigitList chunk 0 0 0) = 0 :=
      (packLE_eq_zero_iff _).mpr (swarDigitList_all_zero chunk hbytes hnone)
    simp [hz]
  · obtain ⟨c, hc, hcp⟩ := List.any_eq_true.mp hany
    obtain ⟨d, hd, hdne⟩ := swarDigitList_exists chunk 0 0 0 (by omega) (by omega)
      (by omega) hbytes ⟨c, hc, hcp⟩
    simp only [decide_eq_true_eq]
    intro h0
    exact hdne ((packLE_eq_zero_iff _).mp h0 d hd)

theorem has_json_escapable_byte_eq :
    ∀ (n : Nat) (buffer : List Nat), buffer.length = n →
      (∀ b ∈ buffer, b < 256) →
      has_json_escapable_byte buffer = has_json_escapable_byte_scalar buffer := by
  intro n
  induction n using Nat.strong_induction_on with
  | _ n ih =>
    intro buffer hn hbytes
    rcases buffer with _ | ⟨b0, _ | ⟨b1, _ | ⟨b2, _ | ⟨b3, _ | ⟨b4, _ | ⟨b5, _ |
      ⟨b6, _ | ⟨b7, rest⟩⟩⟩⟩⟩⟩⟩⟩
    · rfl
    · rfl
    · rfl
    · rfl
    · rfl
    · rfl
    · rfl
    · rfl
    · rw [has_json_escapable_byte]
      have hch8 : ∀ b ∈ ([b0, b1, b2, b3, b4, b5, b6, b7] : List Nat), b < 256 := by
        intro b hb
        apply hbytes b
        simp only [List.mem_cons] at hb ⊢
        tauto
      rw [swar_correct [b0, b1, b2, b3, b4, b5, b6, b7] rfl hch8]
      have hshape : (b0 :: b1 :: b2 :: b3 :: b4 :: b5 :: b6 :: b7 :: rest) =
          [b0, b1, b2, b3, b4, b5, b6, b7] ++ rest := rfl
      have hrest : has_json_escapable_byte rest = has_json_escapable_byte_scalar rest := by
        apply ih rest.length _ rest rfl (fun b hb => hbytes b (by simp [hb]))
        rw [← hn]
        simp only [List.length_cons]
        omega
      cases hch : ([b0, b1, b2, b3, b4, b5, b6, b7] : List Nat).any
          needs_json_escape_scalar
      · rw [if_neg (by simp), hrest, has_json_escapable_byte_scalar,
          has_json_escapable_byte_scalar, hshape, List.any_append, hch]
        simp
      · rw [if_pos rfl, has_json_escapable_byte_scalar, hshape, List.any_append, hch]
        simp

/-- C5: the word-parallel scan has_json_escapable_byte agrees with the
byte-at-a-time scalar scan on every buffer of bytes, and the scalar scan
is true exactly when some byte is below 32, equal to 34 or equal to 92. -/
theorem C5_swar_scan_equiv (buffer : List Nat) (hbytes : ∀ b ∈ buffer, b < 256) :
    has_json_escapable_byte buffer = has_json_escapable_byte_scalar buffer ∧
      has_json_escapable_byte_scalar buffer =
        buffer.any (fun b => decide (b < 32) || decide (b = 34) || decide (b = 92)) :=
  ⟨has_json_escapable_byte_eq buffer.length buffer rfl hbytes, rfl⟩

theorem C5_swar_scan_equiv_witness :
    (∀ b ∈ ([72, 105, 34, 200, 1, 2, 3, 4, 5] : List Nat), b < 256) ∧
      has_json_escapable_byte [72, 105, 34, 200, 1, 2, 3, 4, 5] =
        has_json_escapable_byte_scalar [72, 105, 34, 200, 1, 2, 3, 4, 5] :=
  ⟨by decide, (C5_swar_scan_equiv [72, 105, 34, 200, 1, 2, 3, 4, 5] (by decide)).1⟩

/-! ## Periodic line-feed insertion (line_feed_every_k_bytes.rs) -/

/-- The compile-time table SHUFFLE_MASKS_NEON: row r is the identity lane
permutation with a 255 marker (the line-feed slot) inserted at lane r. -/
def SHUFFLE_MASKS_NEON : List (List Nat) :=
  [[255, 0, 1, 2, 3, 4, 5, 6, 7, 8, 9, 10, 11, 12, 13, 14],
   [0, 255, 1, 2, 3, 4, 5, 6, 7, 8, 9, 10, 11, 12, 13, 14],
   [0, 1, 255, 2, 3, 4, 5, 6, 7, 8, 9, 10, 11, 12, 13, 14],
   [0, 1, 2, 255, 3, 4, 5, 6, 7, 8, 9, 10, 11, 12, 13, 14],
   [0, 1, 2, 3, 255, 4, 5, 6, 7, 8, 9, 10, 11, 12, 13, 14],
   [0, 1, 2, 3, 4, 255, 5, 6, 7, 8, 9, 10, 11, 12, 13, 14],
   [0, 1, 2, 3, 4, 5, 255, 6, 7, 8, 9, 10, 11, 12, 13, 14],
   [0, 1, 2, 3, 4, 5, 6, 255, 7, 8, 9, 10, 11, 12, 13, 14],
   [0, 1, 2, 3, 4, 5, 6, 7, 255, 8, 9, 10, 11, 12, 13, 14],
   [0, 1, 2, 3, 4, 5, 6, 7, 8, 255, 9, 10, 11, 12, 13, 14],
   [0, 1, 2, 3, 4, 5, 6, 7, 8, 9, 255, 10, 11, 12, 13, 14],
   [0, 1, 2, 3, 4, 5, 6, 7, 8, 9, 10, 255, 11, 12, 13, 14],
   [0, 1, 2, 3, 4, 5, 6, 7, 8, 9, 10, 11, 255, 12, 13, 14],
   [0, 1, 2, 3, 4, 5, 6, 7, 8, 9, 10, 11, 12, 255, 13, 14],
   [0, 1, 2, 3, 4, 5, 6, 7, 8, 9, 10, 11, 12, 13, 255, 14],
   [0, 1, 2, 3, 4, 5, 6, 7, 8, 9, 10, 11, 12, 13, 14, 255]]

/-- The identity index vector
vcombine_u8 (vcreate_u8 0x0706050403020100) (vcreate_u8 0x0F0E0D0C0B0A0908):
bytes 0..15 in order (little endian). -/
def IDENTITY_IDX : List Nat :=
  [0, 1, 2, 3, 4, 5, 6, 7, 8, 9, 10, 11, 12, 13, 14, 15]

/-- A raw-pointer byte load: in bounds it reads the buffer, out of bounds
it yields arbitrary junk bytes. -/
def readLane (buffer : List Nat) (junk : Nat → Nat) (a : Nat) : Nat :=
  if a < buffer.length then buffer.getD a 0 else junk a

/-- vld1q_u8 at a raw byte offset: 16 consecutive readLane bytes. -/
def readVec16 (buffer : List Nat) (junk : Nat → Nat) (p : Nat) : List Nat :=
  (List.range 16).map (fun t => readLane buffer junk (p + t))

/-- insert_line_feed32_neon_impl: insert one line feed into a 32-byte
input at position n, producing a 33-byte array, via the shuffle table. -/
def insert_line_feed32_neon_impl (input : List Nat) (n : Nat) : List Nat :=
  let output := List.replicate 33 0
  let lower := readBytes input 0 16
  let upper := readBytes input 16 16
  let line_feed_vector := vdupq_n_u8 10
  let identity := IDENTITY_IDX
  if n = 32 then
    (storeBytes (storeBytes output 0 lower) 16 upper).set 32 10
  else if 16 ≤ n then
    let maskhi := SHUFFLE_MASKS_NEON.getD (n - 16) []
    let lf_pos_lo := vceqq_u8 identity (vdupq_n_u8 255)
    let shuffled_lo := vqtbl1q_u8 lower identity
    let result_lo := vbslq_u8 lf_pos_lo line_feed_vector shuffled_lo
    let lf_pos_hi := vceqq_u8 maskhi (vdupq_n_u8 255)
    let shuffled_hi := vqtbl1q_u8 upper maskhi
    let result_hi := vbslq_u8 lf_pos_hi line_feed_vector shuffled_hi
    (storeBytes (storeBytes output 0 result_lo) 16 result_hi).set 32 (input.getD 31 0)
  else
    let shifted_upper := vextq_u8 lower upper 15
    let masklo := SHUFFLE_MASKS_NEON.getD n []
    let lf_pos_lo := vceqq_u8 masklo (vdupq_n_u8 255)
    let shuffled_lo := vqtbl1q_u8 lower masklo
    let result_lo := vbslq_u8 lf_pos_lo line_feed_vector shuffled_lo
    let lf_pos_hi := vceqq_u8 identity (vdupq_n_u8 255)
    let shuffled_hi := vqtbl1q_u8 shifted_upper identity
    let result_hi := vbslq_u8 lf_pos_hi line_feed_vector shuffled_hi
    (storeBytes (storeBytes output 0 result_lo) 16 result_hi).set 32 (input.getD 31 0)

/-- The while loop of insert_line_feed_scalar: extend with the next k
bytes and push a line feed while a full run remains, then copy the tail.
The 0 < k conjunct in the guard makes termination explicit; it always
holds at the call site, which returns early when k = 0. -/
def insert_line_feed_scalar_loop (buffer : List Nat) (k input_pos : Nat) : List Nat :=
  if h : 0 < k ∧ input_pos + k ≤ buffer.length then
    (buffer.drop input_pos).take k ++ [10] ++
      insert_line_feed_scalar_loop buffer k (input_pos + k)
  else
    buffer.drop input_pos
termination_by buffer.length - input_pos
decreasing_by omega

/-- insert_line_feed_scalar: k = 0 returns the buffer unchanged, else the
run/line-feed loop output. -/
def insert_line_feed_scalar (buffer : List Nat) (k : Nat) : List Nat :=
  if k = 0 then buffer else insert_line_feed_scalar_loop buffer k 0

/-- One k ≤ 32 iteration body of insert_line_feed_neon: load 16 bytes (and
16 more if they start in bounds, else a zero vector), place the line feed
through the shuffle table, and store 16-byte vectors (plus one byte for
k = 32) at the output cursor.  Returns the new memory and the list of
(address, width) stores performed. -/
def lfChunkLE32 (buffer : List Nat) (junk : Nat → Nat) (k input_pos : Nat)
    (mem : Nat → Nat) (output_pos : Nat) : (Nat → Nat) × List (Nat × Nat) :=
  let lower := readVec16 buffer junk input_pos
  let upper := if input_pos + 16 < buffer.length then
      readVec16 buffer junk (input_pos + 16)
    else vdupq_n_u8 0
  let line_feed_vector := vdupq_n_u8 10
  let identity := IDENTITY_IDX
  if k = 32 then
    (Function.update
        (writeMem (writeMem mem output_pos lower) (output_pos + 16) upper)
        (output_pos + 32) 10,
      [(output_pos, 16), (output_pos + 16, 16), (output_pos + 32, 1)])
  else if 16 ≤ k then
    let maskhi := SHUFFLE_MASKS_NEON.getD (k - 16) []
    let lf_pos_lo := vceqq_u8 identity (vdupq_n_u8 255)
    let shuffled_lo := vqtbl1q_u8 lower identity
    let result_lo := vbslq_u8 lf_pos_lo line_feed_vector shuffled_lo
    let lf_pos_hi := vceqq_u8 maskhi (vdupq_n_u8 255)
    let shuffled_hi := vqtbl1q_u8 upper maskhi
    let result_hi := vbslq_u8 lf_pos_hi line_feed_vector shuffled_hi
    (writeMem (writeMem mem output_pos result_lo) (output_pos + 16) result_hi,
      [(output_pos, 16), (output_pos + 16, 16)])
  else
    let shifted_upper := vextq_u8 lower upper 15
    let masklo := SHUFFLE_MASKS_NEON.getD k []
    let lf_pos_lo := vceqq_u8 masklo (vdupq_n_u8 255)
    let shuffled_lo := vqtbl1q_u8 lower masklo
    let result_lo := vbslq_u8 lf_pos_lo line_feed_vector shuffled_lo
    let lf_pos_hi := vceqq_u8 identity (vdupq_n_u8 255)
    let shuffled_hi := vqtbl1q_u8 shifted_upper identity
    let result_hi := vbslq_u8 lf_pos_hi line_feed_vector shuffled_hi
    (writeMem (writeMem mem output_pos result_lo) (output_pos + 16) result_hi,
      [(output_pos, 16), (output_pos + 16, 16)])

/-- Prepend some performed stores to the store list of a loop result. -/
def consStores (ws : List (Nat × Nat))
    (r : (Nat → Nat) × Nat × Nat × List (Nat × Nat)) :
    (Nat → Nat) × Nat × Nat × List (Nat × Nat) :=
  (r.1, r.2.1, r.2.2.1, ws ++ r.2.2.2)

/-- The inner copy loop of the k > 32 branch of insert_line_feed_neon:
copy 32 bytes per iteration while at least 32 remain, then the leftover
bytes in one copy_nonoverlapping.  Returns the new memory, the new input
and output cursors, and the stores performed. -/
def lfCopyLoop (buffer : List Nat) (junk : Nat → Nat) (mem : Nat → Nat)
    (input_pos output_pos remaining : Nat) :
    (Nat → Nat) × Nat × Nat × List (Nat × Nat) :=
  if h : 32 ≤ remaining then
    let lower := readVec16 buffer junk input_pos
    let upper := readVec16 buffer junk (input_pos + 16)
    let m2 := writeMem (writeMem mem output_pos lower) (output_pos + 16) upper
    consStores [(output_pos, 16), (output_pos + 16, 16)]
      (lfCopyLoop buffer junk m2 (input_pos + 32) (output_pos + 32)
        (remaining - 32))
  else if 0 < remaining then
    (writeMem mem output_pos
        ((List.range remaining).map (fun t => readLane buffer junk (input_pos + t))),
      input_pos + remaining, output_pos + remaining, [(output_pos, remaining)])
  else
    (mem, input_pos, output_pos, [])
termination_by remaining
decreasing_by omega

set_option maxHeartbeats 1000000 in
theorem lfCopyLoop_cursors (buffer : List Nat) (junk : Nat → Nat) :
    ∀ remaining : Nat, ∀ (mem : Nat → Nat) (input_pos output_pos : Nat),
      (lfCopyLoop buffer junk mem input_pos output_pos remaining).2.1 =
          input_pos + remaining ∧
        (lfCopyLoop buffer junk mem input_pos output_pos remaining).2.2.1 =
          output_pos + remaining := by
  intro remaining
  induction remaining using Nat.strong_induction_on with
  | _ remaining ih =>
    intro mem ip op
    rw [lfCopyLoop]
    by_cases h32 : 32 ≤ remaining
    · rw [dif_pos h32]
      obtain ⟨h1, h2⟩ := ih (remaining - 32) (by omega)
        (writeMem (writeMem mem op (readVec16 buffer junk ip)) (op + 16)
          (readVec16 buffer junk (ip + 16))) (ip + 32) (op + 32)
      simp only [consStores]
      constructor
      · omega
      · omega
    · rw [dif_neg h32]
      by_cases h0 : 0 < remaining
      · rw [if_pos h0]
        exact ⟨rfl, rfl⟩
      · rw [if_neg h0]
        exact ⟨by simp; omega, by simp; omega⟩

/-- The main while loop of insert_line_feed_neon over the flat output
memory: one lfChunkLE32 per run for k ≤ 32, else the copy loop plus a
single line-feed byte store.  Returns the final memory, the final input
and output cursors, and all stores performed. -/
def lfNeonLoop (buffer : List Nat) (junk : Nat → Nat) (k : Nat)
    (mem : Nat → Nat) (input_pos output_pos : Nat) :
    (Nat → Nat) × Nat × Nat × List (Nat × Nat) :=
  if h : 0 < k ∧ input_pos + k ≤ buffer.length then
    if hk32 : k ≤ 32 then
      consStores (lfChunkLE32 buffer junk k input_pos mem output_pos).2
        (lfNeonLoop buffer junk k
          (lfChunkLE32 buffer junk k input_pos mem output_pos).1
          (input_pos + k) (output_pos + (k + 1)))
    else
      consStores
        ((lfCopyLoop buffer junk mem input_pos output_pos k).2.2.2 ++
          [((lfCopyLoop buffer junk mem input_pos output_pos k).2.2.1, 1)])
        (lfNeonLoop buffer junk k
          (Function.update (lfCopyLoop buffer junk mem input_pos output_pos k).1
            (lfCopyLoop buffer junk mem input_pos output_pos k).2.2.1 10)
          (lfCopyLoop buffer junk mem input_pos output_pos k).2.1
          ((lfCopyLoop buffer junk mem input_pos output_pos k).2.2.1 + 1))
  else
    (mem, input_pos, output_pos, [])
termination_by buffer.length - input_pos
decreasing_by
  · omega
  · have hc := (lfCopyLoop_cursors buffer junk k mem input_pos output_pos).1
    omega

/-- insert_line_feed_neon: k = 0 returns the buffer; otherwise run the
vector loop over the Vec's allocation (initial contents arbitrary,
modelled by junk), set_len to the final output cursor, and extend with
the input tail from the final input cursor. -/
def insert_line_feed_neon (buffer : List Nat) (junk : Nat → Nat) (k : Nat) :
    List Nat :=
  if k = 0 then buffer
  else
    memRange (lfNeonLoop buffer junk k junk 0 0).1
        (lfNeonLoop buffer junk k junk 0 0).2.2.1 ++
      buffer.drop (lfNeonLoop buffer junk k junk 0 0).2.1

/-- The (address, width) pairs of all raw stores performed by
insert_line_feed_neon. -/
def lfNeonStores (buffer : List Nat) (junk : Nat → Nat) (k : Nat) :
    List (Nat × Nat) :=
  if k = 0 then [] else (lfNeonLoop buffer junk k junk 0 0).2.2.2

/-- The run/separator shape asserted by the spec for periodic insertion:
q full runs of k input bytes, each followed by one 0x0A byte. -/
def lfRuns (buffer : List Nat) (k : Nat) : Nat → Nat → List Nat
  | _, 0 => []
  | input_pos, q + 1 =>
      (buffer.drop input_pos).take k ++ [10] ++
        lfRuns buffer k (input_pos + k) q

theorem insert_line_feed_scalar_loop_eq (buffer : List Nat) (k : Nat) (hk : 0 < k) :
    ∀ (n input_pos : Nat), buffer.length - input_pos = n →
      insert_line_feed_scalar_loop buffer k input_pos =
        lfRuns buffer k input_pos ((buffer.length - input_pos) / k) ++
          buffer.drop (input_pos + k * ((buffer.length - input_pos) / k)) := by
  intro n
  induction n using Nat.strong_induction_on with
  | _ n ih =>
    intro ip hn
    by_cases h : ip + k ≤ buffer.length
    · rw [insert_line_feed_scalar_loop, dif_pos ⟨hk, h⟩]
      have hq : (buffer.length - ip) / k = (buffer.length - (ip + k)) / k + 1 := by
        rw [show buffer.length - ip = (buffer.length - (ip + k)) + k by omega]
        rw [Nat.add_div_right _ hk]
      rw [ih (buffer.length - (ip + k)) (by omega) (ip + k) rfl, hq, lfRuns]
      rw [show ip + k * ((buffer.length - (ip + k)) / k + 1) =
          (ip + k) + k * ((buffer.length - (ip + k)) / k) by
        rw [Nat.mul_succ]; omega]
      simp [List.append_assoc]
    · rw [insert_line_feed_scalar_loop, dif_neg (fun hc => h hc.2)]
      have hq : (buffer.length - ip) / k = 0 := Nat.div_eq_of_lt (by omega)
      rw [hq]
      simp [lfRuns]

theorem lfRuns_length (buffer : List Nat) (k : Nat) :
    ∀ q input_pos, input_pos + k * q ≤ buffer.length →
      (lfRuns buffer k input_pos q).length = (k + 1) * q := by
  intro q
  induction q with
  | zero => intro ip h; simp [lfRuns]
  | succ q ihq =>
    intro ip h
    have hms : k * (q + 1) = k * q + k := Nat.mul_succ k q
    rw [lfRuns]
    simp only [List.length_append, List.length_take, List.length_drop,
      List.length_cons, List.length_nil]
    rw [ihq (ip + k) (by omega)]
    have hms2 : (k + 1) * (q + 1) = (k + 1) * q + (k + 1) := Nat.mul_succ _ _
    omega

theorem insert_line_feed_scalar_length (buffer : List Nat) (k : Nat) (hk : 0 < k) :
    (insert_line_feed_scalar buffer k).length =
      buffer.length + buffer.length / k := by
  rw [insert_line_feed_scalar, if_neg (by omega),
    insert_line_feed_scalar_loop_eq buffer k hk buffer.length 0 (by omega)]
  simp only [Nat.sub_zero, Nat.zero_add]
  have h1 : k * (buffer.length / k) = (buffer.length / k) * k := Nat.mul_comm _ _
  have h2 := Nat.div_mul_le_self buffer.length k
  rw [List.length_append,
    lfRuns_length buffer k (buffer.length / k) 0 (by omega)]
  simp only [List.length_drop]
  have hms : (k + 1) * (buffer.length / k) =
      k * (buffer.length / k) + buffer.length / k := by ring
  omega

theorem length_readVec16 (buffer : List Nat) (junk : Nat → Nat) (p : Nat) :
    (readVec16 buffer junk p).length = 16 := by
  simp [readVec16]

theorem getD_readVec16 (buffer : List Nat) (junk : Nat → Nat) (p j : Nat)
    (h : j < 16) :
    (readVec16 buffer junk p).getD j 0 = readLane buffer junk (p + j) :=
  getD_range_map 16 j _ 0 h

theorem readLane_inBounds (buffer : List Nat) (junk : Nat → Nat) (a : Nat)
    (h : a < buffer.length) : readLane buffer junk a = buffer.getD a 0 :=
  if_pos h

theorem getD_byte_bound (buffer : List Nat) (hbytes : ∀ b ∈ buffer, b < 256)
    (a : Nat) (h : a < buffer.length) : buffer.getD a 0 < 256 := by
  rw [List.getD_eq_getElem buffer 0 h]
  exact hbytes _ (List.getElem_mem h)

theorem length_vceqq : ∀ (a b : List Nat),
    (vceqq_u8 a b).length = min a.length b.length := by
  intro a
  induction a with
  | nil => intro b; cases b <;> simp [vceqq_u8]
  | cons x xs ih =>
    intro b
    cases b with
    | nil => simp [vceqq_u8]
    | cons y ys =>
      rw [vceqq_u8]
      simp only [List.length_cons, ih ys]
      omega

theorem getD_vceqq : ∀ (a b : List Nat) (j : Nat), j < a.length → j < b.length →
    (vceqq_u8 a b).getD j 0 =
      if a.getD j 0 = b.getD j 0 then 255 else 0 := by
  intro a
  induction a with
  | nil => intro b j h1 _; simp at h1
  | cons x xs ih =>
    intro b j h1 h2
    cases b with
    | nil => simp at h2
    | cons y ys =>
      cases j with
      | zero => simp [vceqq_u8]
      | succ j =>
        rw [vceqq_u8]
        simp only [List.getD_cons_succ]
        exact ih ys j (by simpa using h1) (by simpa using h2)

theorem getD_vbslq : ∀ (m a b : List Nat) (j : Nat),
    j < m.length → j < a.length → j < b.length →
    (vbslq_u8 m a b).getD j 0 =
      ((m.getD j 0) &&& (a.getD j 0)) |||
        ((255 ^^^ (m.getD j 0)) &&& (b.getD j 0)) := by
  intro m
  induction m with
  | nil => intro a b j h1 _ _; simp at h1
  | cons w ws ih =>
    intro a b j h1 h2 h3
    cases a with
    | nil => simp at h2
    | cons x xs =>
      cases b with
      | nil => simp at h3
      | cons y ys =>
        cases j with
        | zero => simp [vbslq_u8]
        | succ j =>
          rw [vbslq_u8]
          simp only [List.getD_cons_succ]
          exact ih xs ys j (by simpa using h1) (by simpa using h2)
            (by simpa using h3)

theorem length_vqtbl (t idx : List Nat) :
    (vqtbl1q_u8 t idx).length = idx.length := by
  simp [vqtbl1q_u8]

theorem getD_vqtbl (t idx : List Nat) (j : Nat) (h : j < idx.length) :
    (vqtbl1q_u8 t idx).getD j 0 =
      if idx.getD j 0 < 16 then t.getD (idx.getD j 0) 0 else 0 := by
  have h' : j < (vqtbl1q_u8 t idx).length := by rw [length_vqtbl]; exact h
  rw [List.getD_eq_getElem _ 0 h']
  simp only [vqtbl1q_u8, List.getElem_map]
  rw [List.getD_eq_getElem idx 0 h]

theorem getD_vdupq (c j : Nat) (h : j < 16) : (vdupq_n_u8 c).getD j 0 = c := by
  rw [vdupq_n_u8, List.getD_eq_getElem _ 0 (by rw [List.length_replicate]; omega),
    List.getElem_replicate]

theorem getD_drop (l : List Nat) (n j d : Nat) :
    (l.drop n).getD j d = l.getD (n + j) d := by
  by_cases h : n + j < l.length
  · rw [List.getD_eq_getElem _ d (by rw [List.length_drop]; omega),
      List.getD_eq_getElem l d h]
    exact List.getElem_drop _
  · rw [List.getD_eq_default, List.getD_eq_default]
    · omega
    · rw [List.length_drop]; omega

theorem getD_vextq (a b : List Nat) (n j : Nat) (h : j < 16) :
    (vextq_u8 a b n).getD j 0 = (a ++ b).getD (n + j) 0 := by
  rw [vextq_u8, getD_take_lt _ _ _ _ h, getD_drop]

theorem shuffle_row_length : ∀ r < 16,
    (SHUFFLE_MASKS_NEON.getD r []).length = 16 := by decide

theorem shuffle_row_entry : ∀ r < 16, ∀ j < 16,
    (SHUFFLE_MASKS_NEON.getD r []).getD j 0 =
      if j < r then j else if j = r then 255 else j - 1 := by decide

theorem identity_entry : ∀ j < 16, IDENTITY_IDX.getD j 0 = j := by decide

theorem identity_length : IDENTITY_IDX.length = 16 := rfl

theorem vbsl_byte (m a b : Nat) (hm : m = 255 ∨ m = 0) (ha : a < 256)
    (hb : b < 256) :
    (m &&& a) ||| ((255 ^^^ m) &&& b) = if m = 255 then a else b := by
  rcases hm with hm | hm <;> subst hm
  · rw [if_pos rfl, and255_eq a ha]
    have h0 : (255 : Nat) ^^^ 255 = 0 := by decide
    rw [h0, Nat.zero_and, Nat.or_zero]
  · rw [if_neg (by omega), Nat.zero_and]
    have h0 : (255 : Nat) ^^^ 0 = 255 := by decide
    rw [h0, and255_eq b hb, Nat.zero_or]

/-- A run of n bytes of a flat memory starting at a base address. -/
def memSeg (m : Nat → Nat) (op n : Nat) : List Nat :=
  (List.range n).map (fun j => m (op + j))

theorem memSeg_length (m : Nat → Nat) (op n : Nat) :
    (memSeg m op n).length = n := by
  simp [memSeg]

theorem memSeg_add (m : Nat → Nat) (op a b : Nat) :
    memSeg m op (a + b) = memSeg m op a ++ memSeg m (op + a) b := by
  unfold memSeg
  rw [List.range_add, List.map_append, List.map_map]
  congr 1
  apply List.map_congr_left
  intro j _
  simp only [Function.comp_apply]
  congr 1
  omega

theorem memSeg_congr (m1 m2 : Nat → Nat) (op1 op2 n : Nat)
    (h : ∀ j < n, m1 (op1 + j) = m2 (op2 + j)) :
    memSeg m1 op1 n = memSeg m2 op2 n := by
  unfold memSeg
  apply List.map_congr_left
  intro j hj
  exact h j (List.mem_range.mp hj)

theorem memRange_eq_memSeg (m : Nat → Nat) (n : Nat) :
    memRange m n = memSeg m 0 n := by
  unfold memRange memSeg
  apply List.map_congr_left
  intro j _
  rw [Nat.zero_add]

theorem take_run_eq_map (buffer : List Nat) (ip k : Nat)
    (h : ip + k ≤ buffer.length) :
    (buffer.drop ip).take k =
      (List.range k).map (fun j => buffer.getD (ip + j) 0) :=
  (readBytes_eq buffer ip k h).symm

theorem length_vbslq : ∀ (m a b : List Nat),
    (vbslq_u8 m a b).length = min m.length (min a.length b.length) := by
  intro m
  induction m with
  | nil => intro a b; cases a <;> cases b <;> simp [vbslq_u8]
  | cons w ws ih =>
    intro a b
    cases a with
    | nil => simp [vbslq_u8]
    | cons x xs =>
      cases b with
      | nil => simp [vbslq_u8]
      | cons y ys =>
        rw [vbslq_u8]
        simp only [List.length_cons, ih xs ys]
        omega

/-- Lane j of the blended shuffle through table row r, for j left of the
insertion point: the input lane passes through. -/
theorem shuffled_row_getD_lt (V : List Nat) (r j : Nat) (hr : r < 16)
    (hj : j < 16) (h1 : j < r) (hVj : V.getD j 0 < 256) :
    (vbslq_u8 (vceqq_u8 (SHUFFLE_MASKS_NEON.getD r []) (vdupq_n_u8 255))
      (vdupq_n_u8 10)
      (vqtbl1q_u8 V (SHUFFLE_MASKS_NEON.getD r []))).getD j 0 =
      V.getD j 0 := by
  have hRlen : (SHUFFLE_MASKS_NEON.getD r []).length = 16 :=
    shuffle_row_length r hr
  have hRj : (SHUFFLE_MASKS_NEON.getD r []).getD j 0 = j := by
    rw [shuffle_row_entry r hr j hj, if_pos h1]
  have hm : (vceqq_u8 (SHUFFLE_MASKS_NEON.getD r []) (vdupq_n_u8 255)).getD j 0
      = 0 := by
    rw [getD_vceqq _ _ j (by omega)
        (by rw [vdupq_n_u8, List.length_replicate]; omega),
      hRj, getD_vdupq 255 j hj]
    exact if_neg (by omega)
  have hb : (vqtbl1q_u8 V (SHUFFLE_MASKS_NEON.getD r [])).getD j 0 =
      V.getD j 0 := by
    rw [getD_vqtbl _ _ j (by omega), hRj, if_pos (by omega)]
  rw [getD_vbslq _ _ _ j
      (by rw [length_vceqq, hRlen, vdupq_n_u8, List.length_replicate]; omega)
      (by rw [vdupq_n_u8, List.length_replicate]; omega)
      (by rw [length_vqtbl, hRlen]; omega),
    hm, hb, getD_vdupq 10 j hj,
    vbsl_byte 0 10 _ (Or.inr rfl) (by omega) hVj]
  exact if_neg (by omega)

/-- Lane r of the blended shuffle through table row r: the line feed. -/
theorem shuffled_row_getD_eq (V : List Nat) (r : Nat) (hr : r < 16) :
    (vbslq_u8 (vceqq_u8 (SHUFFLE_MASKS_NEON.getD r []) (vdupq_n_u8 255))
      (vdupq_n_u8 10)
      (vqtbl1q_u8 V (SHUFFLE_MASKS_NEON.getD r []))).getD r 0 = 10 := by
  have hRlen : (SHUFFLE_MASKS_NEON.getD r []).length = 16 :=
    shuffle_row_length r hr
  have hRj : (SHUFFLE_MASKS_NEON.getD r []).getD r 0 = 255 := by
    rw [shuffle_row_entry r hr r hr, if_neg (by omega), if_pos rfl]
  have hm : (vceqq_u8 (SHUFFLE_MASKS_NEON.getD r []) (vdupq_n_u8 255)).getD r 0
      = 255 := by
    rw [getD_vceqq _ _ r (by omega)
        (by rw [vdupq_n_u8, List.length_replicate]; omega),
      hRj, getD_vdupq 255 r hr]
    exact if_pos rfl
  have hb : (vqtbl1q_u8 V (SHUFFLE_MASKS_NEON.getD r [])).getD r 0 = 0 := by
    rw [getD_vqtbl _ _ r (by omega), hRj, if_neg (by omega)]
  rw [getD_vbslq _ _ _ r
      (by rw [length_vceqq, hRlen, vdupq_n_u8, List.length_replicate]; omega)
      (by rw [vdupq_n_u8, List.length_replicate]; omega)
      (by rw [length_vqtbl, hRlen]; omega),
    hm, hb, getD_vdupq 10 r hr,
    vbsl_byte 255 10 0 (Or.inl rfl) (by omega) (by omega)]
  exact if_pos rfl

/-- Lane j of the blended shuffle through table row r, for j right of the
insertion point: the input lane j - 1 is shifted in. -/
theorem shuffled_row_getD_gt (V : List Nat) (r j : Nat) (hr : r < 16)
    (hj : j < 16) (h1 : r < j) (hVj : V.getD (j - 1) 0 < 256) :
    (vbslq_u8 (vceqq_u8 (SHUFFLE_MASKS_NEON.getD r []) (vdupq_n_u8 255))
      (vdupq_n_u8 10)
      (vqtbl1q_u8 V (SHUFFLE_MASKS_NEON.getD r []))).getD j 0 =
      V.getD (j - 1) 0 := by
  have hRlen : (SHUFFLE_MASKS_NEON.getD r []).length = 16 :=
    shuffle_row_length r hr
  have hRj : (SHUFFLE_MASKS_NEON.getD r []).getD j 0 = j - 1 := by
    rw [shuffle_row_entry r hr j hj, if_neg (by omega), if_neg (by omega)]
  have hm : (vceqq_u8 (SHUFFLE_MASKS_NEON.getD r []) (vdupq_n_u8 255)).getD j 0
      = 0 := by
    rw [getD_vceqq _ _ j (by omega)
        (by rw [vdupq_n_u8, List.length_replicate]; omega),
      hRj, getD_vdupq 255 j hj]
    exact if_neg (by omega)
  have hb : (vqtbl1q_u8 V (SHUFFLE_MASKS_NEON.getD r [])).getD j 0 =
      V.getD (j - 1) 0 := by
    rw [getD_vqtbl _ _ j (by omega), hRj, if_pos (by omega)]
  rw [getD_vbslq _ _ _ j
      (by rw [length_vceqq, hRlen, vdupq_n_u8, List.length_replicate]; omega)
      (by rw [vdupq_n_u8, List.length_replicate]; omega)
      (by rw [length_vqtbl, hRlen]; omega),
    hm, hb, getD_vdupq 10 j hj,
    vbsl_byte 0 10 _ (Or.inr rfl) (by omega) hVj]
  exact if_neg (by omega)

/-- Lane j of the blend over the identity shuffle: the input lane passes
through untouched. -/
theorem shuffled_identity_getD (V : List Nat) (j : Nat) (hj : j < 16)
    (hVj : V.getD j 0 < 256) :
    (vbslq_u8 (vceqq_u8 IDENTITY_IDX (vdupq_n_u8 255)) (vdupq_n_u8 10)
      (vqtbl1q_u8 V IDENTITY_IDX)).getD j 0 = V.getD j 0 := by
  have hm : (vceqq_u8 IDENTITY_IDX (vdupq_n_u8 255)).getD j 0 = 0 := by
    rw [getD_vceqq _ _ j (by rw [identity_length]; omega)
        (by rw [vdupq_n_u8, List.length_replicate]; omega),
      identity_entry j hj, getD_vdupq 255 j hj]
    exact if_neg (by omega)
  have hb : (vqtbl1q_u8 V IDENTITY_IDX).getD j 0 = V.getD j 0 := by
    rw [getD_vqtbl _ _ j (by rw [identity_length]; omega),
      identity_entry j hj, if_pos hj]
  rw [getD_vbslq _ _ _ j
      (by rw [length_vceqq, identity_length, vdupq_n_u8,
        List.length_replicate]; omega)
      (by rw [vdupq_n_u8, List.length_replicate]; omega)
      (by rw [length_vqtbl, identity_length]; omega),
    hm, hb, getD_vdupq 10 j hj,
    vbsl_byte 0 10 _ (Or.inr rfl) (by omega) hVj]
  exact if_neg (by omega)

theorem length_blend_row (R V : List Nat) (hR : R.length = 16) :
    (vbslq_u8 (vceqq_u8 R (vdupq_n_u8 255)) (vdupq_n_u8 10)
      (vqtbl1q_u8 V R)).length = 16 := by
  simp [length_vbslq, length_vceqq, length_vqtbl, hR, vdupq_n_u8]

/-- One k ≤ 32 chunk of the vector loop: memory below the output cursor is
untouched, the k bytes at the cursor are the input run, and the byte after
them is the line feed. -/
theorem lfChunkLE32_spec (buffer : List Nat) (junk : Nat → Nat)
    (k input_pos : Nat) (mem : Nat → Nat) (output_pos : Nat)
    (hbytes : ∀ b ∈ buffer, b < 256)
    (hk1 : 0 < k) (hk : k ≤ 32) (hip : input_pos + k ≤ buffer.length) :
    (∀ a, a < output_pos →
      (lfChunkLE32 buffer junk k input_pos mem output_pos).1 a = mem a) ∧
    (∀ j, j < k →
      (lfChunkLE32 buffer junk k input_pos mem output_pos).1 (output_pos + j) =
        buffer.getD (input_pos + j) 0) ∧
    (lfChunkLE32 buffer junk k input_pos mem output_pos).1 (output_pos + k) =
      10 := by
  by_cases h32 : k = 32
  · subst h32
    have hip16 : input_pos + 16 < buffer.length := by omega
    have hunf : (lfChunkLE32 buffer junk 32 input_pos mem output_pos).1 =
        Function.update
          (writeMem (writeMem mem output_pos (readVec16 buffer junk input_pos))
            (output_pos + 16) (readVec16 buffer junk (input_pos + 16)))
          (output_pos + 32) 10 := by
      simp [lfChunkLE32, hip16]
    refine ⟨?_, ?_, ?_⟩
    · intro a ha
      rw [hunf, Function.update_noteq (by omega),
        writeMem_apply_lt (readVec16 buffer junk (input_pos + 16)) _
          (output_pos + 16) a (by omega),
        writeMem_apply_lt (readVec16 buffer junk input_pos) mem
          output_pos a (by omega)]
    · intro j hj
      rw [hunf, Function.update_noteq (by omega)]
      by_cases hj16 : j < 16
      · rw [writeMem_apply_lt (readVec16 buffer junk (input_pos + 16)) _
            (output_pos + 16) (output_pos + j) (by omega),
          writeMem_apply_in (readVec16 buffer junk input_pos) mem
            output_pos j (by rw [length_readVec16]; omega),
          getD_readVec16 _ _ _ _ (by omega),
          readLane_inBounds _ _ _ (by omega)]
      · rw [show output_pos + j = (output_pos + 16) + (j - 16) by omega,
          writeMem_apply_in (readVec16 buffer junk (input_pos + 16)) _
            (output_pos + 16) (j - 16) (by rw [length_readVec16]; omega),
          getD_readVec16 _ _ _ _ (by omega),
          show input_pos + 16 + (j - 16) = input_pos + j by omega,
          readLane_inBounds _ _ _ (by omega)]
    · rw [hunf, Function.update_same]
  · by_cases hk16 : 16 ≤ k
    · have hunf : (lfChunkLE32 buffer junk k input_pos mem output_pos).1 =
          writeMem
            (writeMem mem output_pos
              (vbslq_u8 (vceqq_u8 IDENTITY_IDX (vdupq_n_u8 255))
                (vdupq_n_u8 10)
                (vqtbl1q_u8 (readVec16 buffer junk input_pos) IDENTITY_IDX)))
            (output_pos + 16)
            (vbslq_u8
              (vceqq_u8 (SHUFFLE_MASKS_NEON.getD (k - 16) []) (vdupq_n_u8 255))
              (vdupq_n_u8 10)
              (vqtbl1q_u8
                (if input_pos + 16 < buffer.length then
                  readVec16 buffer junk (input_pos + 16)
                else vdupq_n_u8 0)
                (SHUFFLE_MASKS_NEON.getD (k - 16) []))) := by
        simp [lfChunkLE32, h32, hk16]
      have hlolen : (vbslq_u8 (vceqq_u8 IDENTITY_IDX (vdupq_n_u8 255))
          (vdupq_n_u8 10)
          (vqtbl1q_u8 (readVec16 buffer junk input_pos) IDENTITY_IDX)).length =
          16 := length_blend_row IDENTITY_IDX _ identity_length
      refine ⟨?_, ?_, ?_⟩
      · intro a ha
        rw [hunf,
          writeMem_apply_lt _ _ (output_pos + 16) a (by omega),
          writeMem_apply_lt _ _ output_pos a (by omega)]
      · intro j hj
        by_cases hj16 : j < 16
        · have hin : input_pos + j < buffer.length := by omega
          rw [hunf,
            writeMem_apply_lt _ _ (output_pos + 16) (output_pos + j)
              (by omega),
            writeMem_apply_in _ mem output_pos j (by rw [hlolen]; omega),
            shuffled_identity_getD _ j hj16
              (by rw [getD_readVec16 _ _ _ _ hj16,
                readLane_inBounds _ _ _ hin]
                  exact getD_byte_bound buffer hbytes _ hin),
            getD_readVec16 _ _ _ _ hj16, readLane_inBounds _ _ _ hin]
        · have hk17 : 17 ≤ k := by omega
          have hip16 : input_pos + 16 < buffer.length := by omega
          have hin : input_pos + j < buffer.length := by omega
          rw [hunf, if_pos hip16,
            show output_pos + j = (output_pos + 16) + (j - 16) by omega,
            writeMem_apply_in _ _ (output_pos + 16) (j - 16)
              (by rw [length_blend_row _ _ (shuffle_row_length (k - 16)
                (by omega))]; omega),
            shuffled_row_getD_lt _ (k - 16) (j - 16) (by omega) (by omega)
              (by omega)
              (by rw [getD_readVec16 _ _ _ _ (by omega),
                show input_pos + 16 + (j - 16) = input_pos + j by omega,
                readLane_inBounds _ _ _ hin]
                  exact getD_byte_bound buffer hbytes _ hin),
            getD_readVec16 _ _ _ _ (by omega),
            show input_pos + 16 + (j - 16) = input_pos + j by omega,
            readLane_inBounds _ _ _ hin]
      · rw [hunf,
          show output_pos + k = (output_pos + 16) + (k - 16) by omega,
          writeMem_apply_in _ _ (output_pos + 16) (k - 16)
            (by by_cases hc : input_pos + 16 < buffer.length
                · rw [if_pos hc, length_blend_row _ _
                    (shuffle_row_length (k - 16) (by omega))]
                  omega
                · rw [if_neg hc, length_blend_row _ _
                    (shuffle_row_length (k - 16) (by omega))]
                  omega)]
        exact shuffled_row_getD_eq _ (k - 16) (by omega)
    · have hunf : (lfChunkLE32 buffer junk k input_pos mem output_pos).1 =
          writeMem
            (writeMem mem output_pos
              (vbslq_u8
                (vceqq_u8 (SHUFFLE_MASKS_NEON.getD k []) (vdupq_n_u8 255))
                (vdupq_n_u8 10)
                (vqtbl1q_u8 (readVec16 buffer junk input_pos)
                  (SHUFFLE_MASKS_NEON.getD k []))))
            (output_pos + 16)
            (vbslq_u8 (vceqq_u8 IDENTITY_IDX (vdupq_n_u8 255))
              (vdupq_n_u8 10)
              (vqtbl1q_u8
                (vextq_u8 (readVec16 buffer junk input_pos)
                  (if input_pos + 16 < buffer.length then
                    readVec16 buffer junk (input_pos + 16)
                  else vdupq_n_u8 0) 15)
                IDENTITY_IDX)) := by
        simp [lfChunkLE32, h32, hk16]
      have hlolen : (vbslq_u8
          (vceqq_u8 (SHUFFLE_MASKS_NEON.getD k []) (vdupq_n_u8 255))
          (vdupq_n_u8 10)
          (vqtbl1q_u8 (readVec16 buffer junk input_pos)
            (SHUFFLE_MASKS_NEON.getD k []))).length = 16 :=
        length_blend_row _ _ (shuffle_row_length k (by omega))
      refine ⟨?_, ?_, ?_⟩
      · intro a ha
        rw [hunf,
          writeMem_apply_lt _ _ (output_pos + 16) a (by omega),
          writeMem_apply_lt _ _ output_pos a (by omega)]
      · intro j hj
        have hin : input_pos + j < buffer.length := by omega
        rw [hunf,
          writeMem_apply_lt _ _ (output_pos + 16) (output_pos + j) (by omega),
          writeMem_apply_in _ mem output_pos j (by rw [hlolen]; omega),
          shuffled_row_getD_lt _ k j (by omega) (by omega) hj
            (by rw [getD_readVec16 _ _ _ _ (by omega),
              readLane_inBounds _ _ _ hin]
                exact getD_byte_bound buffer hbytes _ hin),
          getD_readVec16 _ _ _ _ (by omega), readLane_inBounds _ _ _ hin]
      · rw [hunf,
          writeMem_apply_lt _ _ (output_pos + 16) (output_pos + k) (by omega),
          writeMem_apply_in _ mem output_pos k (by rw [hlolen]; omega)]
        exact shuffled_row_getD_eq _ k (by omega)

/-- The k > 32 inner copy loop: memory below the output cursor is
untouched and the copied bytes equal the input bytes. -/
theorem lfCopyLoop_spec (buffer : List Nat) (junk : Nat → Nat) :
    ∀ remaining : Nat, ∀ (mem : Nat → Nat) (input_pos output_pos : Nat),
      input_pos + remaining ≤ buffer.length →
      (∀ a, a < output_pos →
        (lfCopyLoop buffer junk mem input_pos output_pos remaining).1 a =
          mem a) ∧
      (∀ j, j < remaining →
        (lfCopyLoop buffer junk mem input_pos output_pos remaining).1
          (output_pos + j) = buffer.getD (input_pos + j) 0) := by
  intro remaining
  induction remaining using Nat.strong_induction_on with
  | _ remaining ih =>
    intro mem ip op hrem
    by_cases h32 : 32 ≤ remaining
    · rw [lfCopyLoop, dif_pos h32]
      simp only [consStores]
      obtain ⟨ihp, ihv⟩ := ih (remaining - 32) (by omega)
        (writeMem (writeMem mem op (readVec16 buffer junk ip)) (op + 16)
          (readVec16 buffer junk (ip + 16))) (ip + 32) (op + 32) (by omega)
      constructor
      · intro a ha
        rw [ihp a (by omega),
          writeMem_apply_lt (readVec16 buffer junk (ip + 16)) _ (op + 16) a
            (by omega),
          writeMem_apply_lt (readVec16 buffer junk ip) mem op a (by omega)]
      · intro j hj
        by_cases hj32 : j < 32
        · rw [ihp (op + j) (by omega)]
          by_cases hj16 : j < 16
          · rw [writeMem_apply_lt (readVec16 buffer junk (ip + 16)) _
                (op + 16) (op + j) (by omega),
              writeMem_apply_in (readVec16 buffer junk ip) mem op j
                (by rw [length_readVec16]; omega),
              getD_readVec16 _ _ _ _ (by omega),
              readLane_inBounds _ _ _ (by omega)]
          · rw [show op + j = (op + 16) + (j - 16) by omega,
              writeMem_apply_in (readVec16 buffer junk (ip + 16)) _
                (op + 16) (j - 16) (by rw [length_readVec16]; omega),
              getD_readVec16 _ _ _ _ (by omega),
              show ip + 16 + (j - 16) = ip + j by omega,
              readLane_inBounds _ _ _ (by omega)]
        · rw [show op + j = (op + 32) + (j - 32) by omega,
            ihv (j - 32) (by omega),
            show ip + 32 + (j - 32) = ip + j by omega]
    · rw [lfCopyLoop, dif_neg h32]
      by_cases h0 : 0 < remaining
      · rw [if_pos h0]
        constructor
        · intro a ha
          exact writeMem_apply_lt _ mem op a (by omega)
        · intro j hj
          show writeMem mem op
            ((List.range remaining).map
              (fun t => readLane buffer junk (ip + t))) (op + j) =
            buffer.getD (ip + j) 0
          rw [writeMem_apply_in _ mem op j (by simp; omega),
            getD_range_map remaining j _ 0 hj,
            readLane_inBounds _ _ _ (by omega)]
      · rw [if_neg h0]
        exact ⟨fun a _ => rfl, fun j hj => by omega⟩

/-- The vector loop of insert_line_feed_neon: final cursors, preservation
below the output base, and the bytes written form the run/separator shape
of the full runs. -/
theorem lfNeonLoop_spec (buffer : List Nat) (junk : Nat → Nat) (k : Nat)
    (hk : 0 < k) (hbytes : ∀ b ∈ buffer, b < 256) :
    ∀ (n : Nat) (mem : Nat → Nat) (input_pos output_pos : Nat),
      buffer.length - input_pos = n →
      (lfNeonLoop buffer junk k mem input_pos output_pos).2.1 =
          input_pos + k * ((buffer.length - input_pos) / k) ∧
      (lfNeonLoop buffer junk k mem input_pos output_pos).2.2.1 =
          output_pos + (k + 1) * ((buffer.length - input_pos) / k) ∧
      (∀ a, a < output_pos →
        (lfNeonLoop buffer junk k mem input_pos output_pos).1 a = mem a) ∧
      memSeg (lfNeonLoop buffer junk k mem input_pos output_pos).1 output_pos
          ((k + 1) * ((buffer.length - input_pos) / k)) =
        lfRuns buffer k input_pos ((buffer.length - input_pos) / k) := by
  intro n
  induction n using Nat.strong_induction_on with
  | _ n ih =>
    intro mem ip op hn
    by_cases h : ip + k ≤ buffer.length
    · have hq : (buffer.length - ip) / k =
          (buffer.length - (ip + k)) / k + 1 := by
        rw [show buffer.length - ip = (buffer.length - (ip + k)) + k by omega,
          Nat.add_div_right _ hk]
      by_cases hk32 : k ≤ 32
      · rw [lfNeonLoop, dif_pos ⟨hk, h⟩, dif_pos hk32]
        simp only [consStores]
        obtain ⟨c1, c2, c3⟩ :=
          lfChunkLE32_spec buffer junk k ip mem op hbytes hk hk32 h
        obtain ⟨e1, e2, e3, e4⟩ := ih (buffer.length - (ip + k)) (by omega)
          (lfChunkLE32 buffer junk k ip mem op).1 (ip + k) (op + (k + 1)) rfl
        refine ⟨?_, ?_, ?_, ?_⟩
        · rw [e1, hq, Nat.mul_succ]
          omega
        · rw [e2, hq, Nat.mul_succ]
          omega
        · intro a ha
          rw [e3 a (by omega), c1 a ha]
        · rw [hq, show (k + 1) * ((buffer.length - (ip + k)) / k + 1) =
              (k + 1) + (k + 1) * ((buffer.length - (ip + k)) / k) by ring,
            memSeg_add, lfRuns]
          have hfirst : memSeg (lfNeonLoop buffer junk k
              (lfChunkLE32 buffer junk k ip mem op).1 (ip + k)
              (op + (k + 1))).1 op (k + 1) =
              (buffer.drop ip).take k ++ [10] := by
            rw [memSeg_congr _ (lfChunkLE32 buffer junk k ip mem op).1 op op
                (k + 1) (fun j hj => e3 (op + j) (by omega)),
              memSeg_add, take_run_eq_map buffer ip k h]
            congr 1
            · unfold memSeg
              apply List.map_congr_left
              intro j hj
              exact c2 j (List.mem_range.mp hj)
            · unfold memSeg
              rw [(by decide : List.range 1 = [0])]
              simp [c3]
          rw [hfirst, e4]
      · rw [lfNeonLoop, dif_pos ⟨hk, h⟩, dif_neg hk32]
        simp only [consStores]
        have hc1 : (lfCopyLoop buffer junk mem ip op k).2.1 = ip + k :=
          (lfCopyLoop_cursors buffer junk k mem ip op).1
        have hc2 : (lfCopyLoop buffer junk mem ip op k).2.2.1 = op + k :=
          (lfCopyLoop_cursors buffer junk k mem ip op).2
        rw [hc1, hc2]
        obtain ⟨p1, p2⟩ := lfCopyLoop_spec buffer junk k mem ip op h
        obtain ⟨e1, e2, e3, e4⟩ := ih (buffer.length - (ip + k)) (by omega)
          (Function.update (lfCopyLoop buffer junk mem ip op k).1 (op + k) 10)
          (ip + k) (op + k + 1) rfl
        refine ⟨?_, ?_, ?_, ?_⟩
        · rw [e1, hq, Nat.mul_succ]
          omega
        · rw [e2, hq, Nat.mul_succ]
          omega
        · intro a ha
          rw [e3 a (by omega), Function.update_noteq (by omega), p1 a ha]
        · rw [hq, show (k + 1) * ((buffer.length - (ip + k)) / k + 1) =
              (k + 1) + (k + 1) * ((buffer.length - (ip + k)) / k) by ring,
            memSeg_add, lfRuns]
          have hfirst : memSeg (lfNeonLoop buffer junk k
              (Function.update (lfCopyLoop buffer junk mem ip op k).1
                (op + k) 10) (ip + k) (op + k + 1)).1 op (k + 1) =
              (buffer.drop ip).take k ++ [10] := by
            rw [memSeg_congr _
                (Function.update (lfCopyLoop buffer junk mem ip op k).1
                  (op + k) 10) op op (k + 1)
                (fun j hj => e3 (op + j) (by omega)),
              memSeg_add, take_run_eq_map buffer ip k h]
            congr 1
            · unfold memSeg
              apply List.map_congr_left
              intro j hj
              have hjk : j < k := List.mem_range.mp hj
              rw [Function.update_noteq (by omega), p2 j hjk]
            · unfold memSeg
              rw [(by decide : List.range 1 = [0])]
              simp [Function.update_same]
          rw [hfirst, show op + (k + 1) = op + k + 1 by omega, e4]
    · rw [lfNeonLoop, dif_neg (fun hc => h hc.2)]
      have hq : (buffer.length - ip) / k = 0 := Nat.div_eq_of_lt (by omega)
      rw [hq]
      exact ⟨by simp, by simp, fun a _ => rfl, by simp [memSeg, lfRuns]⟩

/-- The vector periodic insert agrees with the scalar one on every buffer
of bytes, for every junk contents of out-of-bounds memory and of the
uninitialised allocation. -/
theorem insert_line_feed_neon_eq_scalar (buffer : List Nat)
    (junk : Nat → Nat) (k : Nat) (hbytes : ∀ b ∈ buffer, b < 256) :
    insert_line_feed_neon buffer junk k = insert_line_feed_scalar buffer k := by
  by_cases hk : k = 0
  · subst hk
    simp [insert_line_feed_neon, insert_line_feed_scalar]
  · have hk0 : 0 < k := by omega
    rw [insert_line_feed_neon, insert_line_feed_scalar, if_neg hk, if_neg hk,
      insert_line_feed_scalar_loop_eq buffer k hk0 buffer.length 0 rfl]
    obtain ⟨e1, e2, e3, e4⟩ :=
      lfNeonLoop_spec buffer junk k hk0 hbytes buffer.length junk 0 0 rfl
    rw [e1, e2, memRange_eq_memSeg]
    simp only [Nat.sub_zero, Nat.zero_add] at e4 ⊢
    rw [e4]

/-- C3: for k > 0 both the scalar and the vector periodic-insert return
the q = ⌊len/k⌋ full runs of k input bytes each followed by one 0x0A,
then the remaining shorter run with no trailing separator, with output
length len + ⌊len/k⌋; for k = 0 both return the buffer unchanged. -/
theorem C3_periodic_insert_correct (buffer : List Nat) (k : Nat)
    (junk : Nat → Nat) (hbytes : ∀ b ∈ buffer, b < 256) :
    (k = 0 → insert_line_feed_scalar buffer 0 = buffer ∧
      insert_line_feed_neon buffer junk 0 = buffer) ∧
    (0 < k →
      insert_line_feed_scalar buffer k =
        lfRuns buffer k 0 (buffer.length / k) ++
          buffer.drop (k * (buffer.length / k)) ∧
      insert_line_feed_neon buffer junk k =
        lfRuns buffer k 0 (buffer.length / k) ++
          buffer.drop (k * (buffer.length / k)) ∧
      (insert_line_feed_scalar buffer k).length =
        buffer.length + buffer.length / k ∧
      (insert_line_feed_neon buffer junk k).length =
        buffer.length + buffer.length / k) := by
  constructor
  · intro hk
    exact ⟨by simp [insert_line_feed_scalar],
      by simp [insert_line_feed_neon]⟩
  · intro hk0
    have hs : insert_line_feed_scalar buffer k =
        lfRuns buffer k 0 (buffer.length / k) ++
          buffer.drop (k * (buffer.length / k)) := by
      rw [insert_line_feed_scalar, if_neg (by omega),
        insert_line_feed_scalar_loop_eq buffer k hk0 buffer.length 0 rfl]
      simp only [Nat.sub_zero, Nat.zero_add]
    have hn := insert_line_feed_neon_eq_scalar buffer junk k hbytes
    refine ⟨hs, by rw [hn, hs], insert_line_feed_scalar_length buffer k hk0,
      by rw [hn]; exact insert_line_feed_scalar_length buffer k hk0⟩

theorem C3_periodic_insert_correct_witness :
    (∀ b ∈ ([65, 66, 67] : List Nat), b < 256) ∧
      insert_line_feed_scalar [65, 66, 67] 2 =
        lfRuns [65, 66, 67] 2 0 (([65, 66, 67] : List Nat).length / 2) ++
          ([65, 66, 67] : List Nat).drop
            (2 * (([65, 66, 67] : List Nat).length / 2)) :=
  ⟨by decide,
    ((C3_periodic_insert_correct [65, 66, 67] 2 (fun _ => 0)
      (by decide)).2 (by decide)).1⟩

/-- C7 (code bug): the vector periodic insert stores outside the declared
output capacity.  For a 16-byte buffer and k = 16 the declared capacity is
len + len/k = 17, yet the loop performs the 16-byte store (16, 16) whose
footprint ends at byte 32. -/
theorem C7_lf_neon_store_out_of_capacity :
    (16, 16) ∈ lfNeonStores (List.replicate 16 65) (fun _ => 0) 16 ∧
      (List.replicate 16 65 : List Nat).length +
          (List.replicate 16 65 : List Nat).length / 16 < 16 + 16 := by
  constructor
  · simp [lfNeonStores, lfNeonLoop, lfChunkLE32, consStores]
  · decide

/-- C4: for each of the three transforms the vector path produces the
same visible output bytes and the same returned length as the scalar
path: compaction returns equal lengths and equal kept prefixes, escape
returns equal lengths and equal written prefixes (given the capacity the
kernels assume), and periodic insert returns identical buffers. -/
theorem C4_vector_refines_scalar
    (buf : List Nat) (rem : Nat)
    (input output : List Nat) (lf : List Nat) (junk : Nat → Nat) (k : Nat)
    (hesc_bytes : ∀ b ∈ input, b < 256)
    (hesc_cap : 2 * input.length ≤ output.length)
    (hlf_bytes : ∀ b ∈ lf, b < 256) :
    ((remove_byte_neon buf rem).2 =
        (remove_chars_from_strings_scalar buf rem).2 ∧
      (remove_byte_neon buf rem).1.take ((remove_byte_neon buf rem).2) =
        (remove_chars_from_strings_scalar buf rem).1.take
          ((remove_chars_from_strings_scalar buf rem).2)) ∧
    (∃ o : List Nat,
      escape_json_scalar input output =
          .ok (o, (escape_json_neon input output).2) ∧
        o.take ((escape_json_neon input output).2) =
          (escape_json_neon input output).1.take
            ((escape_json_neon input output).2)) ∧
    insert_line_feed_neon lf junk k = insert_line_feed_scalar lf k := by
  refine ⟨?_, ?_, insert_line_feed_neon_eq_scalar lf junk k hlf_bytes⟩
  · obtain ⟨e1, e2, e3⟩ := removeScalarLoop_spec rem buf.length buf 0 0
      (by omega) le_rfl (by omega)
    obtain ⟨f1, f2, f3⟩ := removeNeonLoop_spec rem buf.length buf 0 0
      (by omega) le_rfl (by omega)
    rw [List.drop_zero] at e1 e2 f1 f2
    simp only [List.take_zero, List.nil_append] at e2 f2
    rw [remove_byte_neon, remove_chars_from_strings_scalar]
    exact ⟨by rw [e1, f1], by rw [e2, f2]⟩
  · obtain ⟨o, g1, g2, g3⟩ := escape_json_scalar_go_spec input output 0
      (by omega)
    obtain ⟨n1, n2, n3⟩ := escape_json_neon_spec input output hesc_bytes
      hesc_cap
    simp only [Nat.zero_add, List.take_zero, List.nil_append] at g1 g2
    refine ⟨o, ?_, ?_⟩
    · rw [escape_json_scalar, n1]
      exact g1
    · rw [n1, g2, n2]

theorem C4_vector_refines_scalar_witness :
    (∀ b ∈ ([34] : List Nat), b < 256) ∧
      (2 * ([34] : List Nat).length ≤ ([0, 0] : List Nat).length) ∧
      (∀ b ∈ ([65, 66, 67] : List Nat), b < 256) ∧
      insert_line_feed_neon [65, 66, 67] (fun _ => 0) 2 =
        insert_line_feed_scalar [65, 66, 67] 2 :=
  ⟨by decide, by decide, by decide,
    (C4_vector_refines_scalar [1, 2, 1] 1 [34] [0, 0] [65, 66, 67]
      (fun _ => 0) 2 (by decide) (by decide) (by decide)).2.2⟩

theorem store32_set_eq (output A B : List Nat) (c : Nat)
    (hout : output.length = 33) (hA : A.length = 16) (hB : B.length = 16) :
    (storeBytes (storeBytes output 0 A) 16 B).set 32 c = A ++ B ++ [c] := by
  have h1 : (storeBytes output 0 A).take 16 = A := by
    have := take_storeBytes_full A output 0 (by omega)
    simpa [hA] using this
  have hL1len : (storeBytes output 0 A).length = 33 := by
    rw [length_storeBytes, hout]
  have h2 : (storeBytes (storeBytes output 0 A) 16 B).take 32 = A ++ B := by
    have := take_storeBytes_full B (storeBytes output 0 A) 16
      (by rw [hL1len, hB]; omega)
    rw [hB] at this
    simpa [h1] using this
  have hL2len : (storeBytes (storeBytes output 0 A) 16 B).length = 33 := by
    rw [length_storeBytes, hL1len]
  have h3 := set_take_succ (storeBytes (storeBytes output 0 A) 16 B) 32 c
    (by omega)
  have h4 : ((storeBytes (storeBytes output 0 A) 16 B).set 32 c).take 33 =
      (storeBytes (storeBytes output 0 A) 16 B).set 32 c :=
    List.take_of_length_le (by rw [List.length_set, hL2len])
  rw [← h4, h3, h2, List.append_assoc]

theorem blend_identity_eq (V : List Nat) (hlen : V.length = 16)
    (hVb : ∀ i, i < 16 → V.getD i 0 < 256) :
    vbslq_u8 (vceqq_u8 IDENTITY_IDX (vdupq_n_u8 255)) (vdupq_n_u8 10)
      (vqtbl1q_u8 V IDENTITY_IDX) = V := by
  apply List.ext_getElem
  · rw [length_blend_row IDENTITY_IDX V identity_length, hlen]
  · intro j h1 h2
    have hj : j < 16 := by
      rw [length_blend_row IDENTITY_IDX V identity_length] at h1
      exact h1
    rw [← List.getD_eq_getElem _ 0 h1, ← List.getD_eq_getElem _ 0 h2,
      shuffled_identity_getD V j hj (hVb j hj)]

theorem blend_row_eq (V : List Nat) (r : Nat) (hr : r < 16)
    (hlen : V.length = 16) (hVb : ∀ i, i < 16 → V.getD i 0 < 256) :
    vbslq_u8 (vceqq_u8 (SHUFFLE_MASKS_NEON.getD r []) (vdupq_n_u8 255))
      (vdupq_n_u8 10) (vqtbl1q_u8 V (SHUFFLE_MASKS_NEON.getD r [])) =
      V.take r ++ [10] ++ (V.take 15).drop r := by
  have hRlen := shuffle_row_length r hr
  apply List.ext_getElem
  · rw [length_blend_row _ _ hRlen]
    simp [hlen]
    omega
  · intro j h1 h2
    have hj : j < 16 := by rw [length_blend_row _ _ hRlen] at h1; exact h1
    rw [← List.getD_eq_getElem _ 0 h1, ← List.getD_eq_getElem _ 0 h2]
    have hlA : (V.take r).length = r := by rw [List.length_take]; omega
    have hlAB : (V.take r ++ [10]).length = r + 1 := by
      rw [List.length_append, hlA]
      rfl
    by_cases hlt : j < r
    · rw [shuffled_row_getD_lt V r j hr hj hlt (hVb j hj),
        List.getD_append _ _ _ j (by rw [hlAB]; omega),
        List.getD_append _ _ _ j (by rw [hlA]; omega),
        getD_take_lt _ _ _ _ hlt]
    · by_cases heq : j = r
      · subst heq
        rw [shuffled_row_getD_eq V j (by omega),
          List.getD_append _ _ _ j (by rw [hlAB]; omega),
          List.getD_append_right _ _ _ j hlA.le]
        simp [hlA]
      · have hgt : r < j := by omega
        rw [shuffled_row_getD_gt V r j hr hj hgt (hVb (j - 1) (by omega)),
          List.getD_append_right _ _ _ j (by rw [hlAB]; omega), hlAB,
          getD_drop, show r + (j - (r + 1)) = j - 1 by omega,
          getD_take_lt _ _ _ _ (by omega)]

theorem drop_take_append_drop (l : List Nat) (m n : Nat) (h : n ≤ m)
    (h2 : m ≤ l.length) :
    (l.take m).drop n ++ l.drop m = l.drop n := by
  conv_rhs => rw [← List.take_append_drop m l]
  rw [List.drop_append_of_le_length (by rw [List.length_take]; omega)]

/-- C10: for a 32-byte input and any n ≤ 32, insert_line_feed32_neon_impl
returns the 33-byte array with one 0x0A inserted at position n and all 32
input bytes kept in order around it. -/
theorem C10_insert32_correct (input : List Nat) (n : Nat)
    (hlen : input.length = 32) (hn : n ≤ 32)
    (hbytes : ∀ b ∈ input, b < 256) :
    insert_line_feed32_neon_impl input n =
      input.take n ++ [10] ++ input.drop n := by
  have hlower : readBytes input 0 16 = input.take 16 := by
    rw [readBytes_eq input 0 16 (by omega), List.drop_zero]
  have hupper : readBytes input 16 16 = input.drop 16 := by
    rw [readBytes_eq input 16 16 (by omega)]
    exact List.take_of_length_le (by rw [List.length_drop]; omega)
  have hlowlen : (input.take 16).length = 16 := by
    rw [List.length_take]
    omega
  have hupplen : (input.drop 16).length = 16 := by
    rw [List.length_drop]
    omega
  have h31 : input.drop 31 = [input.getD 31 0] := by
    rw [List.drop_eq_getElem_cons (by omega),
      List.drop_eq_nil_of_le (show input.length ≤ 31 + 1 by omega),
      List.getD_eq_getElem input 0 (by omega)]
  by_cases h32 : n = 32
  · subst h32
    have hunf : insert_line_feed32_neon_impl input 32 =
        (storeBytes (storeBytes (List.replicate 33 0) 0 (readBytes input 0 16))
          16 (readBytes input 16 16)).set 32 10 := by
      simp [insert_line_feed32_neon_impl]
    rw [hunf, hlower, hupper,
      store32_set_eq _ _ _ _ (by simp) hlowlen hupplen,
      List.take_append_drop, List.take_of_length_le (by omega),
      List.drop_eq_nil_of_le (by omega), List.append_nil]
  · by_cases h16 : 16 ≤ n
    · have hr : n - 16 < 16 := by omega
      have hunf : insert_line_feed32_neon_impl input n =
          (storeBytes
            (storeBytes (List.replicate 33 0) 0
              (vbslq_u8 (vceqq_u8 IDENTITY_IDX (vdupq_n_u8 255))
                (vdupq_n_u8 10)
                (vqtbl1q_u8 (readBytes input 0 16) IDENTITY_IDX)))
            16
            (vbslq_u8
              (vceqq_u8 (SHUFFLE_MASKS_NEON.getD (n - 16) [])
                (vdupq_n_u8 255))
              (vdupq_n_u8 10)
              (vqtbl1q_u8 (readBytes input 16 16)
                (SHUFFLE_MASKS_NEON.getD (n - 16) [])))).set 32
            (input.getD 31 0) := by
        simp [insert_line_feed32_neon_impl, h32, h16]
      rw [hunf, hlower, hupper,
        blend_identity_eq (input.take 16) hlowlen
          (fun i hi => by
            rw [getD_take_lt _ _ _ _ hi]
            exact getD_byte_bound input hbytes i (by omega)),
        blend_row_eq (input.drop 16) (n - 16) hr hupplen
          (fun i hi => by
            rw [getD_drop]
            exact getD_byte_bound input hbytes _ (by omega)),
        store32_set_eq _ _ _ _ (by simp) hlowlen (by simp; omega)]
      have htake : input.take n =
          input.take 16 ++ (input.drop 16).take (n - 16) := by
        conv_lhs => rw [show n = 16 + (n - 16) by omega]
        rw [List.take_add]
      have hdrop : ((input.drop 16).take 15).drop (n - 16) ++
          [input.getD 31 0] = input.drop n := by
        have h1631 : (input.drop 16).drop 15 = input.drop 31 := by
          rw [List.drop_drop]
        rw [← h31, ← h1631,
          drop_take_append_drop (input.drop 16) 15 (n - 16) (by omega)
            (by rw [List.length_drop]; omega),
          List.drop_drop, show 16 + (n - 16) = n by omega]
      rw [htake, ← hdrop]
      simp [List.append_assoc]
    · have hunf : insert_line_feed32_neon_impl input n =
          (storeBytes
            (storeBytes (List.replicate 33 0) 0
              (vbslq_u8
                (vceqq_u8 (SHUFFLE_MASKS_NEON.getD n []) (vdupq_n_u8 255))
                (vdupq_n_u8 10)
                (vqtbl1q_u8 (readBytes input 0 16)
                  (SHUFFLE_MASKS_NEON.getD n []))))
            16
            (vbslq_u8 (vceqq_u8 IDENTITY_IDX (vdupq_n_u8 255))
              (vdupq_n_u8 10)
              (vqtbl1q_u8
                (vextq_u8 (readBytes input 0 16) (readBytes input 16 16) 15)
                IDENTITY_IDX))).set 32 (input.getD 31 0) := by
        simp [insert_line_feed32_neon_impl, h32, h16]
      have hshift : vextq_u8 (input.take 16) (input.drop 16) 15 =
          (input.drop 15).take 16 := by
        rw [vextq_u8, List.take_append_drop]
      have hshiftlen : ((input.drop 15).take 16).length = 16 := by
        rw [List.length_take, List.length_drop]
        omega
      rw [hunf, hlower, hupper, hshift,
        blend_row_eq (input.take 16) n (by omega) hlowlen
          (fun i hi => by
            rw [getD_take_lt _ _ _ _ hi]
            exact getD_byte_bound input hbytes i (by omega)),
        blend_identity_eq ((input.drop 15).take 16) hshiftlen
          (fun i hi => by
            rw [getD_take_lt _ _ _ _ hi, getD_drop]
            exact getD_byte_bound input hbytes _ (by omega)),
        store32_set_eq _ _ _ _ (by simp) (by simp; omega) hshiftlen]
      have htt : (input.take 16).take n = input.take n := by
        rw [List.take_take]
        congr 1
        omega
      have htt15 : (input.take 16).take 15 = input.take 15 := by
        rw [List.take_take]
        norm_num
      have hinner : (input.drop 15).take 16 ++ [input.getD 31 0] =
          input.drop 15 := by
        have hsplit : input.drop 15 =
            (input.drop 15).take 16 ++ (input.drop 15).drop 16 :=
          (List.take_append_drop 16 (input.drop 15)).symm
        rw [List.drop_drop, show (16 : Nat) + 15 = 31 by norm_num, h31]
          at hsplit
        exact hsplit.symm
      have htail : (input.take 15).drop n ++ input.drop 15 = input.drop n :=
        drop_take_append_drop input 15 n (by omega) (by omega)
      rw [htt, htt15, ← htail]
      conv_rhs => rw [← hinner]
      simp [List.append_assoc]

theorem C10_insert32_correct_witness :
    (([1, 2, 3, 4, 5, 6, 7, 8, 9, 10, 11, 12, 13, 14, 15, 16, 17, 18, 19,
        20, 21, 22, 23, 24, 25, 26, 27, 28, 29, 30, 31, 32] :
      List Nat).length = 32) ∧
      insert_line_feed32_neon_impl
          [1, 2, 3, 4, 5, 6, 7, 8, 9, 10, 11, 12, 13, 14, 15, 16, 17, 18,
            19, 20, 21, 22, 23, 24, 25, 26, 27, 28, 29, 30, 31, 32] 5 =
        List.take 5 [1, 2, 3, 4, 5, 6, 7, 8, 9, 10, 11, 12, 13, 14, 15, 16,
            17, 18, 19, 20, 21, 22, 23, 24, 25, 26, 27, 28, 29, 30, 31, 32] ++
          [10] ++
          List.drop 5 [1, 2, 3, 4, 5, 6, 7, 8, 9, 10, 11, 12, 13, 14, 15,
            16, 17, 18, 19, 20, 21, 22, 23, 24, 25, 26, 27, 28, 29, 30, 31,
            32] :=
  ⟨by decide,
    C10_insert32_correct
      [1, 2, 3, 4, 5, 6, 7, 8, 9, 10, 11, 12, 13, 14, 15, 16, 17, 18, 19,
        20, 21, 22, 23, 24, 25, 26, 27, 28, 29, 30, 31, 32] 5 (by decide)
      (by decide) (by decide)⟩
